import Mathlib

/-!
Verification of the caching and structural-object core of the
`typescript-common` utility library.

The TypeScript sources are shallowly embedded: JavaScript `Map`s (which
iterate in insertion order) become association lists whose head is the
oldest entry; a stored JavaScript `undefined` value is `Option.none`;
fallible code returns `Except`/`Option`.  Keys of the generic caches are
an arbitrary type with decidable equality; a key that is literally the
JavaScript value `undefined` is not modelled (every in-repository caller
uses string keys).
-/

/-! ## Association-list model of a JavaScript `Map`

`mapGet`, `mapSet`, `mapDelete` mirror `Map.get` / `Map.set` /
`Map.delete`: `set` of a fresh key appends at the iteration-order end,
`set` of a present key updates in place, `delete` removes the entry. -/

def mapGet {K V : Type} [DecidableEq K] : List (K × V) → K → Option V
  | [], _ => none
  | (k', v) :: rest, k => if k' = k then some v else mapGet rest k

def mapDelete {K V : Type} [DecidableEq K] : List (K × V) → K → List (K × V)
  | [], _ => []
  | (k', v) :: rest, k => if k' = k then rest else (k', v) :: mapDelete rest k

def mapSet {K V : Type} [DecidableEq K] : List (K × V) → K → V → List (K × V)
  | [], k, v => [(k, v)]
  | (k', v') :: rest, k, v =>
    if k' = k then (k, v) :: rest else (k', v') :: mapSet rest k v

/-! ## `LRUCache` (src/unnamed/part_020, `lru-cache.ts`)

`entries` is the backing `Map` in iteration order: head = least recently
used, last = most recently used.  Values are `Option V`: `none` models a
stored JavaScript `undefined`. -/

structure LRUCache (K V : Type) where
  maxSize : Nat
  entries : List (K × Option V)
deriving Repr

namespace LRUCache

/-- The constructor: `throw` when `maxSize < 1` is modelled as `none`. -/
def make (K V : Type) (maxSize : Nat) : Option (LRUCache K V) :=
  if maxSize < 1 then none else some ⟨maxSize, []⟩

def size {K V : Type} (c : LRUCache K V) : Nat := c.entries.length

/-- `get(key)`: the JavaScript-visible value is `undefined` both when the
key is absent and when the stored value is `undefined`; the
recency-refreshing delete-then-set only happens when `value !== undefined`. -/
def get {K V : Type} [DecidableEq K] (c : LRUCache K V) (k : K) :
    Option V × LRUCache K V :=
  match (mapGet c.entries k).join with
  | some v =>
    (some v, { c with entries := mapSet (mapDelete c.entries k) k (some v) })
  | none => (none, c)

/-- `set(key, value)`: delete a present key first (re-added at the end);
otherwise, when at capacity, delete the first (least recently used) key.
The source's `firstKey !== undefined` guard is the `head?` match. -/
def set {K V : Type} [DecidableEq K] (c : LRUCache K V) (k : K) (v : Option V) :
    LRUCache K V :=
  let m :=
    if (mapGet c.entries k).isSome then mapDelete c.entries k
    else if c.entries.length ≥ c.maxSize then
      match c.entries.head? with
      | some (firstKey, _) => mapDelete c.entries firstKey
      | none => c.entries
    else c.entries
  { c with entries := mapSet m k v }

def clear {K V : Type} (c : LRUCache K V) : LRUCache K V :=
  { c with entries := [] }

/-- One client-visible cache operation (result of `get` discarded). -/
inductive Op (K V : Type) where
  | get (k : K)
  | set (k : K) (v : Option V)
  | clear
deriving Repr

def step {K V : Type} [DecidableEq K] (c : LRUCache K V) : Op K V → LRUCache K V
  | .get k => (c.get k).2
  | .set k v => c.set k v
  | .clear => c.clear

def run {K V : Type} [DecidableEq K] (c : LRUCache K V) (ops : List (Op K V)) :
    LRUCache K V :=
  ops.foldl step c

/-- A fresh cache of the given capacity (capacity ≥ 1 sides handled in
theorem hypotheses; `make` refuses smaller ones). -/
def fresh (K V : Type) (maxSize : Nat) : LRUCache K V := ⟨maxSize, []⟩

end LRUCache

/-! ## `Memoize` (src/unnamed/part_007, bounded variant)

The memoized wrapper's state is its backing `Map` from derived string key
to cached result, in insertion order.  `keyFn` is the (user-supplied or
serialisation-derived) key function; `fn` the wrapped pure function. -/

namespace Memo

/-- One call of the memoized closure: on a hit the cache is returned
unchanged; on a miss, when `cache.size >= maxCacheSize`, the first
(oldest-inserted) key is deleted before the new entry is appended. -/
def memoizedCall {A R : Type} (fn : A → R) (keyFn : A → String)
    (maxCacheSize : Nat) (cache : List (String × R)) (args : A) :
    R × List (String × R) :=
  let key := keyFn args
  match mapGet cache key with
  | some r => (r, cache)
  | none =>
    let result := fn args
    let cache :=
      if cache.length ≥ maxCacheSize then
        match cache.head? with
        | some (oldestKey, _) => mapDelete cache oldestKey
        | none => cache
      else cache
    (result, mapSet cache key result)

/-- Run a sequence of calls, keeping only the final cache state. -/
def memoRun {A R : Type} (fn : A → R) (keyFn : A → String)
    (maxCacheSize : Nat) (calls : List A) : List (String × R) :=
  calls.foldl (fun st a => (memoizedCall fn keyFn maxCacheSize st a).2) []

end Memo

/-! ## JavaScript structural values (tree view) and `ObjectEquals`
(src/src/asserts — the `utils.ts` copy of `equals.ts`)

`ObjectEquals` recurses structurally and uses reference identity only in
its `a === b` fast path, so a tree model suffices here.  Two object-like
operands are taken to be distinct references (`===` false); symbol
properties are not modelled (`getOwnPropertySymbols` is always empty on
the plain-data values in scope).  `num` models finite numbers; `nan`
models `NaN`.  `regexp` carries the full textual representation (pattern
plus flags), which is what `toString` compares.  Arrays and objects carry
their own list types so that all recursions stay structural. -/

mutual

inductive JSVal where
  | null
  | undef
  | bool (b : Bool)
  | num (n : Int)
  | nan
  | str (s : String)
  | date (t : Int)
  | regexp (src : String)
  | arr (elems : JSList)
  | obj (fields : JSFields)

inductive JSList where
  | nil
  | cons (head : JSVal) (tail : JSList)

inductive JSFields where
  | nil
  | cons (key : String) (val : JSVal) (tail : JSFields)

end

namespace JSVal

mutual

def sizev : JSVal → Nat
  | .arr xs => sizevL xs + 1
  | .obj fs => sizevF fs + 1
  | _ => 1

def sizevL : JSList → Nat
  | .nil => 0
  | .cons x xs => sizev x + sizevL xs

def sizevF : JSFields → Nat
  | .nil => 0
  | .cons _ v fs => sizev v + sizevF fs

end

def lenL : JSList → Nat
  | .nil => 0
  | .cons _ xs => lenL xs + 1

def lenF : JSFields → Nat
  | .nil => 0
  | .cons _ _ fs => lenF fs + 1

/-- JavaScript `typeof` (with `typeof null === 'object'`). -/
def typeof : JSVal → String
  | null => "object"
  | undef => "undefined"
  | bool _ => "boolean"
  | num _ => "number"
  | nan => "number"
  | str _ => "string"
  | date _ => "object"
  | regexp _ => "object"
  | arr _ => "object"
  | obj _ => "object"

/-- Strict equality `===` on the modelled values: primitive value
equality, `NaN !== NaN`, and `false` between object-like operands
(distinct references). -/
def strictEq : JSVal → JSVal → Bool
  | null, null => true
  | undef, undef => true
  | bool a, bool b => a = b
  | num a, num b => a = b
  | str a, str b => a = b
  | _, _ => false

def isNaNv : JSVal → Bool
  | nan => true
  | _ => false

def isArrayv : JSVal → Bool
  | arr _ => true
  | _ => false

def isNullv : JSVal → Bool
  | null => true
  | _ => false

def isUndefv : JSVal → Bool
  | undef => true
  | _ => false

/-- `Object.keys(v).length`: number of own enumerable string keys.
`Date` and `RegExp` instances have none.  Plain objects are assumed
key-duplicate-free (a JavaScript object cannot hold two own properties
with the same name). -/
def jsKeysLen : JSVal → Nat
  | obj fields => lenF fields
  | _ => 0

def fieldsHas : JSFields → String → Bool
  | .nil, _ => false
  | .cons k _ fs, key => k = key || fieldsHas fs key

def fieldsGet : JSFields → String → JSVal
  | .nil, _ => undef
  | .cons k v fs, key => if k = key then v else fieldsGet fs key

def hasOwnv (v : JSVal) (k : String) : Bool :=
  match v with
  | obj fields => fieldsHas fields k
  | _ => false

/-- `b[key]`: own-property read, `undefined` when absent. -/
def getOwn (v : JSVal) (k : String) : JSVal :=
  match v with
  | obj fields => fieldsGet fields k
  | _ => undef

mutual

/-- `ObjectEquals`, fuel-indexed so the kernel can evaluate it; fuel only
bounds recursion depth and `ObjectEquals` below supplies enough.  The
branch order mirrors the source: `===`; NaN/NaN; null-or-undefined;
`typeof` mismatch; non-objects; Date/Date; RegExp/RegExp; array/array
elementwise; array against non-array; generic own-key comparison. -/
def objectEqualsF : Nat → JSVal → JSVal → Bool
  | 0, _, _ => false
  | fuel + 1, a, b =>
    if strictEq a b then true
    else if isNaNv a && isNaNv b then true
    else if isNullv a || isNullv b || isUndefv a || isUndefv b then false
    else if typeof a ≠ typeof b then false
    else if typeof a ≠ "object" then false
    else
      match a, b with
      | .date ta, .date tb => ta = tb
      | .regexp ra, .regexp rb => ra = rb
      | .arr xs, .arr ys => lenL xs = lenL ys && objectEqualsListF fuel xs ys
      | .arr _, _ => false
      | _, .arr _ => false
      | a, b =>
        jsKeysLen a = jsKeysLen b &&
          match a with
          | .obj fas => objectEqualsKeysF fuel fas b
          | _ => true

/-- The `for (let i = 0; ...)` element loop (lengths already equal). -/
def objectEqualsListF : Nat → JSList → JSList → Bool
  | _, .nil, _ => true
  | _, .cons _ _, .nil => true
  | fuel, .cons x xs, .cons y ys =>
    objectEqualsF fuel x y && objectEqualsListF fuel xs ys

/-- The `for (const key of keysA)` loop: `Object.hasOwn(b, key)` and the
recursive value comparison.  Iterating the fields of `a` directly is the
same as iterating `Object.keys(a)` and reading `a[key]`, since an
object's own keys are duplicate-free. -/
def objectEqualsKeysF : Nat → JSFields → JSVal → Bool
  | _, .nil, _ => true
  | fuel, .cons k v fas, b =>
    hasOwnv b k && objectEqualsF fuel v (getOwn b k) && objectEqualsKeysF fuel fas b

end

/-- Recursion depth is bounded by the structure of the first operand, so
`sizev a + 1` fuel always suffices. -/
def ObjectEquals (a b : JSVal) : Bool :=
  objectEqualsF (sizev a + 1) a b

end JSVal

/-! ## Security utilities (src/src/object — `security-utils.ts`) -/

namespace SecUtils

def DANGEROUS_PROPERTY_NAMES : List String :=
  ["__proto__", "constructor", "prototype"]

/-- Does the character list start with the pattern list? -/
def chStarts : List Char → List Char → Bool
  | _, [] => true
  | [], _ :: _ => false
  | c :: cs, p :: ps => c = p && chStarts cs ps

/-- Does the character list contain the pattern list as a contiguous run? -/
def chHasSub : List Char → List Char → Bool
  | [], pat => pat.isEmpty
  | c :: cs, pat => chStarts (c :: cs) pat || chHasSub cs pat

/-- ASCII lower-casing (the keys and patterns in play are ASCII). -/
def chLower (c : Char) : Char :=
  if 65 ≤ c.toNat ∧ c.toNat ≤ 90 then Char.ofNat (c.toNat + 32) else c

/-- Case-insensitive substring test, for the `/.../i` regular expressions
(the patterns themselves are lower-case). -/
def hasPatCI (s : String) (pat : String) : Bool :=
  chHasSub (s.data.map chLower) pat.data

/-- The `PATH_TRAVERSAL_PATTERNS` tests: URL-encoded `..`, double
URL-encoded `..`, a literal NUL character, URL-encoded NUL, and the
byte-order-mark / invalid characters U+FEFF, U+FFFE, U+FFFF. -/
def matchesTraversal (key : String) : Bool :=
  hasPatCI key "%2e%2e" ||
  hasPatCI key "%252e%252e" ||
  key.data.any (fun c => c.toNat = 0) ||
  hasPatCI key "%00" ||
  key.data.any (fun c => c.toNat = 0xFEFF || c.toNat = 0xFFFE || c.toNat = 0xFFFF)

/-- `isPropertyKeySafe`: the `typeof key !== 'string'` guard is vacuous
here (keys are strings), then the three dangerous names, the
double-underscore convention, and the traversal patterns, in source
order. -/
def isPropertyKeySafe (key : String) : Bool :=
  if DANGEROUS_PROPERTY_NAMES.contains key then false
  else if chStarts key.data "__".data then false
  else if matchesTraversal key then false
  else true

end SecUtils

/-! ## Heap-modelled JavaScript values

`ObjectClone`, `ObjectHasCircularReference` and `ObjectHash` distinguish
two references to one object from two structurally equal objects, so for
them values are modelled as a pointer graph: a `HVal` is a primitive or a
reference into a heap of nodes.  `HNode.other` stands for any
`typeof === 'object'` value that is neither a plain object, an array nor
a `Date` (class instance, `Map`, `Set`, ...). -/

inductive JPrim where
  | null
  | undef
  | bool (b : Bool)
  | num (n : Int)
  | str (s : String)
  | bigint (n : Int)
deriving Repr, DecidableEq

inductive HVal where
  | prim (p : JPrim)
  | ref (addr : Nat)
deriving Repr, DecidableEq

inductive HNode where
  | obj (fields : List (String × HVal))
  | arr (elems : List HVal)
  | date (t : Int)
  | other (tag : String)
deriving Repr, DecidableEq

abbrev Heap : Type := List (Nat × HNode)

def heapGet (h : Heap) (a : Nat) : Option HNode :=
  mapGet h a

def heapLen (h : Heap) : Nat :=
  List.length h

/-- `typeof` on heap-modelled values. -/
def htypeof : HVal → String
  | .prim .null => "object"
  | .prim .undef => "undefined"
  | .prim (.bool _) => "boolean"
  | .prim (.num _) => "number"
  | .prim (.str _) => "string"
  | .prim (.bigint _) => "bigint"
  | .ref _ => "object"

/-- JavaScript truthiness of a heap-modelled value (every object
reference is truthy). -/
def htruthy : HVal → Bool
  | .prim .null => false
  | .prim .undef => false
  | .prim (.bool b) => b
  | .prim (.num n) => n ≠ 0
  | .prim (.str s) => s ≠ ""
  | .prim (.bigint n) => n ≠ 0
  | .ref _ => true

/-! ## `ObjectHasCircularReference` (src/src/object/has-circular-reference.ts)

The traversal carries the `seen` WeakSet as an explicit list of
addresses; nothing is ever removed from it.  `fuel` only bounds the
recursion depth: each descent through a reference either stops at the
`seen` check or adds a fresh address, so a depth of `heap size + 1` can
never be exceeded and the fuel supplied below is always enough. -/

def detectV (h : Heap) : Nat → List Nat → HVal → Bool × List Nat
  | _, seen, .prim _ => (false, seen)
  | 0, seen, .ref a => if seen.contains a then (true, seen) else (false, a :: seen)
  | fuel + 1, seen, .ref a =>
    if seen.contains a then (true, seen)
    else
      let seen1 := a :: seen
      match heapGet h a with
      | some (.arr xs) =>
        xs.foldl (fun acc x => if acc.1 then acc else detectV h fuel acc.2 x) (false, seen1)
      | some (.obj fs) =>
        fs.foldl (fun acc kv => if acc.1 then acc else detectV h fuel acc.2 kv.2) (false, seen1)
      | _ => (false, seen1)

def ObjectHasCircularReference (h : Heap) (v : HVal) : Bool :=
  (detectV h (heapLen h + 1) [] v).1

/-! ## Raw reachability (the claim's notion of "reachable from itself")

Unlike the detector above, this follows every reference of every node —
including ones stored under dangerous keys — and prunes nothing: it is
the graph-theoretic notion the specification's sentence uses, written
from the claim's words for comparison with the code's behaviour. -/

def nodeRefs : HNode → List Nat
  | .obj fs => fs.filterMap (fun kv => match kv.2 with | .ref a => some a | _ => none)
  | .arr xs => xs.filterMap (fun x => match x with | .ref a => some a | _ => none)
  | _ => []

def succs (h : Heap) (a : Nat) : List Nat :=
  match heapGet h a with
  | some n => nodeRefs n
  | none => []

/-- Saturate a reachable set; `heap size + 1` rounds always suffice. -/
def reachList (h : Heap) : Nat → List Nat → List Nat
  | 0, acc => acc
  | fuel + 1, acc =>
    let next := ((acc.map (succs h)).flatten).filter (fun a => !(acc.contains a))
    if next.isEmpty then acc else reachList h fuel (acc ++ next)

/-- Addresses reachable from `a` in one or more steps. -/
def reachableFrom (h : Heap) (a : Nat) : List Nat :=
  reachList h (heapLen h + 1) (succs h a)

def selfReachable (h : Heap) (a : Nat) : Bool :=
  (reachableFrom h a).contains a

def valRefs : HVal → List Nat
  | .ref a => [a]
  | _ => []

/-- Addresses of the objects "inside" a value: the root object and
everything reachable from it. -/
def objectsInside (h : Heap) (v : HVal) : List Nat :=
  reachList h (heapLen h + 1) (valRefs v)

/-- "Some object or array inside `o` is reachable from itself". -/
def hasSelfLoop (h : Heap) (v : HVal) : Bool :=
  (objectsInside h v).any (fun a => selfReachable h a)

/-! ## `ObjectClone` (src/src/object/clone.ts)

The output of a successful clone is a fresh tree (`CTree`); the visited
WeakSet is threaded through the whole call and never pruned, exactly as
in the source.  `CloneErr.circular` is the circular-reference `Error`,
`CloneErr.unsupported` the unsupported-type `Error`; `CloneErr.fuel`
marks fuel exhaustion and is unreachable for the fuel `ObjectClone`
supplies (each nesting level through a reference either raises at the
visited check or adds a fresh address, so the depth is bounded by
`heap size + 2`). -/

mutual

inductive CTree where
  | prim (p : JPrim)
  | date (t : Int)
  | arr (elems : CTreeList)
  | obj (fields : CTreeFields)

inductive CTreeList where
  | nil
  | cons (head : CTree) (tail : CTreeList)

inductive CTreeFields where
  | nil
  | cons (key : String) (val : CTree) (tail : CTreeFields)

end

def snocL : CTreeList → CTree → CTreeList
  | .nil, t => .cons t .nil
  | .cons x xs, t => .cons x (snocL xs t)

def snocF : CTreeFields → String → CTree → CTreeFields
  | .nil, k, t => .cons k t .nil
  | .cons k' v fs, k, t => .cons k' v (snocF fs k t)

inductive CloneErr where
  | circular
  | unsupported
  | fuel
deriving Repr, DecidableEq

/-- `filterDangerousKeys` (security-utils.ts): keep only the safe own
keys, preserving order. -/
def filterDangerousKeys (fields : List (String × HVal)) : List (String × HVal) :=
  fields.filter (fun kv => SecUtils.isPropertyKeySafe kv.1)

/-- One call of `ObjectClone(obj, visited)`.  Branch order follows the
source: null/undefined passthrough; visited check and insertion (objects
only); `Date`; `Array`; plain object (`constructor === Object`) with
dangerous-key filtering; primitive passthrough; otherwise the
unsupported-type error.  A dangling reference cannot occur in JavaScript
and is mapped to the unsupported error. -/
def cloneElems (cl : List Nat → HVal → Except CloneErr (CTree × List Nat)) :
    List HVal → CTreeList → List Nat → Except CloneErr (CTree × List Nat)
  | [], acc, visited => .ok (.arr acc, visited)
  | x :: xs, acc, visited => do
    let r ← cl visited x
    cloneElems cl xs (snocL acc r.1) r.2

def cloneFields (cl : List Nat → HVal → Except CloneErr (CTree × List Nat)) :
    List (String × HVal) → CTreeFields → List Nat → Except CloneErr (CTree × List Nat)
  | [], acc, visited => .ok (.obj acc, visited)
  | kv :: rest, acc, visited => do
    let r ← cl visited kv.2
    cloneFields cl rest (snocF acc kv.1 r.1) r.2

def cloneV (h : Heap) : Nat → List Nat → HVal → Except CloneErr (CTree × List Nat)
  | 0, _, _ => .error .fuel
  | fuel + 1, visited, v =>
    match v with
    | .prim p => .ok (.prim p, visited)
    | .ref a =>
      if visited.contains a then .error .circular
      else
        let visited1 := a :: visited
        match heapGet h a with
        | some (.date t) => .ok (.date t, visited1)
        | some (.arr xs) => cloneElems (cloneV h fuel) xs .nil visited1
        | some (.obj fs) => cloneFields (cloneV h fuel) (filterDangerousKeys fs) .nil visited1
        | some (.other _) => .error .unsupported
        | none => .error .unsupported

/-- `ObjectClone(obj)`: a fresh visited set per top-level call. -/
def ObjectClone (h : Heap) (v : HVal) : Except CloneErr CTree :=
  (cloneV h (heapLen h + 2) [] v).map Prod.fst

/-! ## `ObjectHash` (src/src/object/hash.ts) and `JSON.stringify`

`JSON.stringify` is host functionality, modelled faithfully in shape:
`undefined` at the top level serialises to nothing (`none`), `undefined`
inside an array to `null`, `undefined`-valued object properties are
skipped, and a `Date` serialises through `toJSON` (the ISO string is
modelled as an injective encoding of the epoch value).  `BigInt` makes
`JSON.stringify` throw a `TypeError`; since `ObjectHash`'s callers only
catch "some error was raised", that case is conflated with the
`none`/undefined case.  String escaping is not modelled (keys and string
contents in scope contain no quotes).  The SHA-256 digest is modelled as
the identity on the canonical serialisation — an injective stand-in for
an injective-in-practice cryptographic digest. -/

def digitChar (n : Nat) : Char := Char.ofNat (48 + n)

def natCharsF : Nat → Nat → List Char
  | 0, _ => []
  | fuel + 1, n => if n < 10 then [digitChar n] else natCharsF fuel (n / 10) ++ [digitChar (n % 10)]

def natStr (n : Nat) : String := ⟨natCharsF (n + 1) n⟩

def intStr : Int → String
  | .ofNat n => natStr n
  | .negSucc m => "-" ++ natStr (m + 1)

def joinComma : List String → String
  | [] => ""
  | [s] => s
  | s :: rest => s ++ "," ++ joinComma rest

def stringifyV (h : Heap) : Nat → HVal → Option String
  | 0, _ => none
  | fuel + 1, v =>
    match v with
    | .prim .null => some "null"
    | .prim .undef => none
    | .prim (.bool b) => some (cond b "true" "false")
    | .prim (.num n) => some (intStr n)
    | .prim (.str s) => some ("\"" ++ s ++ "\"")
    | .prim (.bigint _) => none
    | .ref a =>
      match heapGet h a with
      | some (.date t) => some ("\"date:" ++ intStr t ++ "\"")
      | some (.arr xs) =>
        some ("[" ++ joinComma (xs.map (fun x => (stringifyV h fuel x).getD "null")) ++ "]")
      | some (.obj fs) =>
        some ("\x7b" ++
          joinComma (fs.filterMap
            (fun kv => (stringifyV h fuel kv.2).map (fun s => "\"" ++ kv.1 ++ "\":" ++ s))) ++
          "\x7d")
      | some (.other _) => some "\x7b\x7d"
      | none => none

/-- `ObjectHash(obj)` on the default digest path: raise if the
circular-reference detector fires, raise if serialisation yields nothing,
otherwise digest the canonical serialisation. -/
def ObjectHash (h : Heap) (v : HVal) : Except Unit String :=
  if ObjectHasCircularReference h v then .error ()
  else
    match stringifyV h (heapLen h + 2) v with
    | none => .error ()
    | some s => .ok s

/-! ## Cached wrapper factories (src/src/object/filter-cached.ts and
map-cached.ts)

The closure state is the two-level cache — outer `Map` from
filter/mapper key to inner bucket, inner `Map` from object key to result
— plus the `totalCachedEntries` counter.  The underlying `ObjectFilter`
and `MapObject` computations are imported black boxes and appear as
function parameters (with the filter options / the mapper folded in).
`substring(0, 16)` is `strTake · 16`. -/

def strTake (s : String) (n : Nat) : String := ⟨s.data.take n⟩

structure CacheState (R : Type) where
  cache : List (String × List (String × R))
  total : Nat
deriving Repr, DecidableEq

/-- `Math.ceil(n * 0.2)`.  For every bucket size below `2 ^ 50` the
rounding error of the double-precision product `n * 0.2` is smaller than
its distance to the next integer, so the ceiling equals `⌈n / 5⌉`. -/
def entriesToRemoveCount (n : Nat) : Nat := (n + 4) / 5

/-- The first inner bucket whose size strictly exceeds every earlier
one's (`objectCache.size > largestSize`, starting from `largestSize = 0`):
`none` when every bucket is empty or the cache is empty. -/
def findLargest {R : Type} (cache : List (String × List (String × R))) :
    Option (String × List (String × R)) :=
  cache.foldl
    (fun acc kv =>
      match acc with
      | some best => if kv.2.length > best.2.length then some kv else acc
      | none => if kv.2.length > 0 then some kv else none)
    none

/-- `clearOldestEntries` (textually identical in filter-cached.ts and
map-cached.ts): delete an initial ~20% slice of the largest bucket's
iteration order, drop the bucket if it became empty, and decrease the
total by the number actually removed. -/
def clearOldestEntries {R : Type} (st : CacheState R) : CacheState R :=
  if st.cache.isEmpty then st
  else
    match findLargest st.cache with
    | none => st
    | some (key, bucket) =>
      let toRemove := entriesToRemoveCount bucket.length
      let removed := min toRemove bucket.length
      let bucket2 := bucket.drop toRemove
      let cache2 :=
        if bucket2.isEmpty then mapDelete st.cache key
        else mapSet st.cache key bucket2
      { cache := cache2, total := st.total - removed }

/-- One call of the closure returned by `ObjectFilterCached`.
`objectFilter cursor filter` stands for
`ObjectFilter(cursor, filter, filterOptions)`.  The `ObjectHash(filter)`
call sits outside any try/catch, so its error propagates
(`Except.error`); only the `ObjectHash(cursor)` call is guarded. -/
def ObjectFilterCachedStep (objectFilter : HVal → HVal → Bool) (maxCacheSize : Nat)
    (h : Heap) (st : CacheState Bool) (cursor filter : HVal) :
    Except Unit (Bool × CacheState Bool) :=
  if !htruthy cursor || htypeof cursor ≠ "object" then .ok (false, st)
  else if !htruthy filter || htypeof filter ≠ "object" then .ok (true, st)
  else
    match ObjectHash h filter with
    | .error e => .error e
    | .ok fh =>
      let filterKey := strTake fh 16
      let (objectCache, cache1) :=
        match mapGet st.cache filterKey with
        | some oc => (oc, st.cache)
        | none => ([], mapSet st.cache filterKey [])
      match ObjectHash h cursor with
      | .error _ => .ok (objectFilter cursor filter, { st with cache := cache1 })
      | .ok oh =>
        let objectKey := strTake oh 16
        match mapGet objectCache objectKey with
        | some cached => .ok (cached, { st with cache := cache1 })
        | none =>
          let result := objectFilter cursor filter
          let st2 : CacheState Bool :=
            { cache := mapSet cache1 filterKey (mapSet objectCache objectKey result),
              total := st.total + 1 }
          let st3 := if st2.total > maxCacheSize then clearOldestEntries st2 else st2
          .ok (result, st3)

/-- One call of the closure returned by `MapObjectCached`.
`mapObject cursor` stands for `MapObject(cursor, mapper)`; `emptyR` for
the `{}` returned on invalid input; `resolvedMapperKey` for
`mapperKey ?? mapper.toString()`.  The mapper is never hashed, so no
error can escape: the call always resolves. -/
def MapObjectCachedStep {R : Type} (mapObject : HVal → R) (emptyR : R)
    (maxCacheSize : Nat) (h : Heap) (st : CacheState R) (cursor : HVal)
    (resolvedMapperKey : String) : R × CacheState R :=
  if !htruthy cursor || htypeof cursor ≠ "object" then (emptyR, st)
  else
    let (objectCache, cache1) :=
      match mapGet st.cache resolvedMapperKey with
      | some oc => (oc, st.cache)
      | none => ([], mapSet st.cache resolvedMapperKey [])
    match ObjectHash h cursor with
    | .error _ => (mapObject cursor, { st with cache := cache1 })
    | .ok oh =>
      let objectKey := strTake oh 16
      match mapGet objectCache objectKey with
      | some cached => (cached, { st with cache := cache1 })
      | none =>
        let result := mapObject cursor
        let st2 : CacheState R :=
          { cache := mapSet cache1 resolvedMapperKey (mapSet objectCache objectKey result),
            total := st.total + 1 }
        let st3 := if st2.total > maxCacheSize then clearOldestEntries st2 else st2
        (result, st3)

/-! ## Tree-shaped inputs

`bT` embeds a value tree into a heap by allocating one fresh address per
object node (children first, addresses strictly increasing).  The heaps
obtained this way are exactly the shape of a JavaScript literal: every
object is referenced from precisely one place.  They witness the "no
shared references" side of the clone analysis. -/

mutual

def bT : CTree → Nat → Heap × HVal × Nat
  | .prim p, n => ([], .prim p, n)
  | .date t, n => ([(n, .date t)], .ref n, n + 1)
  | .arr ts, n =>
    match bTL ts n with
    | (h, vs, m) => (h ++ [(m, .arr vs)], .ref m, m + 1)
  | .obj fs, n =>
    match bTF fs n with
    | (h, kvs, m) => (h ++ [(m, .obj kvs)], .ref m, m + 1)

def bTL : CTreeList → Nat → Heap × List HVal × Nat
  | .nil, n => ([], [], n)
  | .cons t ts, n =>
    match bT t n with
    | (h1, v, m) =>
      match bTL ts m with
      | (h2, vs, m2) => (h1 ++ h2, v :: vs, m2)

def bTF : CTreeFields → Nat → Heap × List (String × HVal) × Nat
  | .nil, n => ([], [], n)
  | .cons k t fs, n =>
    match bT t n with
    | (h1, v, m) =>
      match bTF fs m with
      | (h2, kvs, m2) => (h1 ++ h2, (k, v) :: kvs, m2)

end

/-! Nesting depth of a tree: the number of `ObjectClone` recursion
levels its heap embedding needs. -/

mutual

def depthT : CTree → Nat
  | .prim _ => 1
  | .date _ => 1
  | .arr ts => depthTL ts + 1
  | .obj fs => depthTF fs + 1

def depthTL : CTreeList → Nat
  | .nil => 0
  | .cons t ts => max (depthT t) (depthTL ts)

def depthTF : CTreeFields → Nat
  | .nil => 0
  | .cons _ t fs => max (depthT t) (depthTF fs)

end

/-! ## Dangerous keys as the claim describes them, and safety of an
output tree at every nesting depth -/

/-- Modelled from the spec's words: a key equal to `__proto__`,
`constructor` or `prototype`, or beginning with two underscores. -/
def claimDangerous (k : String) : Bool :=
  SecUtils.DANGEROUS_PROPERTY_NAMES.contains k || SecUtils.chStarts k.data "__".data

mutual

def treeSafeB : CTree → Bool
  | .prim _ => true
  | .date _ => true
  | .arr ts => treeSafeL ts
  | .obj fs => treeSafeF fs

def treeSafeL : CTreeList → Bool
  | .nil => true
  | .cons t ts => treeSafeB t && treeSafeL ts

def treeSafeF : CTreeFields → Bool
  | .nil => true
  | .cons k v fs => !claimDangerous k && treeSafeB v && treeSafeF fs

end

/-- `ensureBucket cache k`: the outer cache after the wrapper has looked
up the inner bucket for `k`, creating an empty one when absent. -/
def ensureBucket {R : Type} (cache : List (String × List (String × R))) (k : String) :
    List (String × List (String × R)) :=
  match mapGet cache k with
  | some _ => cache
  | none => mapSet cache k []

/-! ## Concrete example values -/

/-- A diamond: the root references the same plain object from two
different keys; nothing is reachable from itself. -/
def hDiamond : Heap := [(0, .obj [("a", .ref 1), ("b", .ref 1)]), (1, .obj [("x", .prim (.num 1))])]

/-- A genuinely self-referential object. -/
def hSelf : Heap := [(0, .obj [("self", .ref 0)])]

/-- A cycle reachable only through a dangerous key (which the clone's
key filtering drops before recursing). -/
def hDanger : Heap := [(0, .obj [("__self", .ref 0)])]

/-- `JSON.parse('\x7b"__proto__":\x7b"polluted":true\x7d\x7d')`: an own
`__proto__` key holding a payload object. -/
def hProto : Heap := [(0, .obj [("__proto__", .ref 1)]), (1, .obj [("polluted", .prim (.bool true))])]

/-- Heap for the wrapper scenarios: a self-referential object at 0 and
plain objects at 1 and 2. -/
def hMix : Heap :=
  [(0, .obj [("self", .ref 0)]),
   (1, .obj [("a", .prim (.num 1))]),
   (2, .obj [("b", .prim (.num 2))])]

/-- The truncated hash key of the plain object at address 1 of `hMix`. -/
def fkA : String := strTake "\x7b\"a\":1\x7d" 16

/-- An (unreachable-by-normal-runs) cache state used to show the sweep
runs only once per insertion: two buckets of six entries each. -/
def bucket6 (tag : String) : List (String × Bool) :=
  [(tag ++ "1", true), (tag ++ "2", true), (tag ++ "3", true),
   (tag ++ "4", true), (tag ++ "5", true), (tag ++ "6", true)]

def stBig : CacheState Bool := ⟨[(fkA, bucket6 "o"), ("zz", bucket6 "p")], 12⟩

/-! # Theorems -/

/-! ## Association-list lemmas -/

theorem mapGet_eq_none {K V : Type} [DecidableEq K] {l : List (K × V)} {k : K} :
    mapGet l k = none ↔ k ∉ l.map Prod.fst := by
  induction l with
  | nil => simp [mapGet]
  | cons kv rest ih =>
    obtain ⟨k', v⟩ := kv
    by_cases h : k' = k
    · subst h
      simp [mapGet]
    · simp only [mapGet, if_neg h, List.map_cons, List.mem_cons, ih]
      constructor
      · intro hn hmem
        rcases hmem with hmem | hmem
        · exact h hmem.symm
        · exact hn hmem
      · intro hn hmem
        exact hn (Or.inr hmem)

theorem mapSet_of_not_mem {K V : Type} [DecidableEq K] {l : List (K × V)} {k : K}
    (h : k ∉ l.map Prod.fst) (v : V) : mapSet l k v = l ++ [(k, v)] := by
  induction l with
  | nil => rfl
  | cons kv rest ih =>
    obtain ⟨k', v'⟩ := kv
    simp only [List.map_cons, List.mem_cons] at h
    push_neg at h
    have h1 : ¬k' = k := fun e => h.1 e.symm
    simp [mapSet, h1, ih h.2]

theorem mapGet_mapSet_self {K V : Type} [DecidableEq K] (l : List (K × V)) (k : K) (v : V) :
    mapGet (mapSet l k v) k = some v := by
  induction l with
  | nil => simp [mapSet, mapGet]
  | cons kv rest ih =>
    obtain ⟨k', v'⟩ := kv
    by_cases h : k' = k <;> simp [mapSet, mapGet, h, ih]

theorem mapGet_mapSet_ne {K V : Type} [DecidableEq K] (l : List (K × V)) {k k2 : K}
    (h : k ≠ k2) (v : V) : mapGet (mapSet l k v) k2 = mapGet l k2 := by
  have h2 : ¬k2 = k := fun e => h e.symm
  induction l with
  | nil => simp [mapSet, mapGet, h]
  | cons kv rest ih =>
    obtain ⟨k', v'⟩ := kv
    by_cases hk : k' = k
    · subst hk
      simp [mapSet, mapGet, h]
    · by_cases hk2 : k' = k2
      · subst hk2
        simp [mapSet, mapGet, hk, h2]
      · simp [mapSet, mapGet, hk, hk2, ih]

theorem mapGet_mapDelete_ne {K V : Type} [DecidableEq K] (l : List (K × V)) {k k2 : K}
    (h : k ≠ k2) : mapGet (mapDelete l k) k2 = mapGet l k2 := by
  induction l with
  | nil => rfl
  | cons kv rest ih =>
    obtain ⟨k', v'⟩ := kv
    by_cases hk : k' = k
    · subst hk
      simp [mapDelete, mapGet, h]
    · by_cases hk2 : k' = k2
      · subst hk2
        simp [mapDelete, mapGet, hk]
      · simp [mapDelete, mapGet, hk, hk2, ih]

theorem keys_mapDelete_subset {K V : Type} [DecidableEq K] {l : List (K × V)} {k a : K}
    (h : a ∈ (mapDelete l k).map Prod.fst) : a ∈ l.map Prod.fst := by
  induction l with
  | nil => simpa [mapDelete] using h
  | cons kv rest ih =>
    obtain ⟨k', v'⟩ := kv
    by_cases hk : k' = k
    · simp only [mapDelete, if_pos hk] at h
      simp [h]
    · simp only [mapDelete, if_neg hk, List.map_cons, List.mem_cons] at h ⊢
      rcases h with h | h
      · exact Or.inl h
      · exact Or.inr (ih h)

theorem nodup_keys_mapDelete {K V : Type} [DecidableEq K] {l : List (K × V)} (k : K)
    (h : (l.map Prod.fst).Nodup) : ((mapDelete l k).map Prod.fst).Nodup := by
  induction l with
  | nil => simpa [mapDelete]
  | cons kv rest ih =>
    obtain ⟨k', v'⟩ := kv
    simp only [List.map_cons, List.nodup_cons] at h
    by_cases hk : k' = k
    · simpa [mapDelete, hk] using h.2
    · simp only [mapDelete, if_neg hk, List.map_cons, List.nodup_cons]
      exact ⟨fun hmem => h.1 (keys_mapDelete_subset hmem), ih h.2⟩

theorem mapGet_mapDelete_self {K V : Type} [DecidableEq K] {l : List (K × V)} {k : K}
    (h : (l.map Prod.fst).Nodup) : mapGet (mapDelete l k) k = none := by
  induction l with
  | nil => rfl
  | cons kv rest ih =>
    obtain ⟨k', v'⟩ := kv
    simp only [List.map_cons, List.nodup_cons] at h
    by_cases hk : k' = k
    · subst hk
      rw [mapGet_eq_none]
      simpa [mapDelete] using h.1
    · simp [mapDelete, mapGet, hk, ih h.2]

theorem length_mapDelete_of_isSome {K V : Type} [DecidableEq K] {l : List (K × V)} {k : K}
    (h : (mapGet l k).isSome) : (mapDelete l k).length + 1 = l.length := by
  induction l with
  | nil => simp [mapGet] at h
  | cons kv rest ih =>
    obtain ⟨k', v'⟩ := kv
    by_cases hk : k' = k
    · simp [mapDelete, hk]
    · simp only [mapGet, if_neg hk] at h
      simp [mapDelete, hk, ih h]

theorem length_mapDelete_le {K V : Type} [DecidableEq K] (l : List (K × V)) (k : K) :
    (mapDelete l k).length ≤ l.length := by
  induction l with
  | nil => simp [mapDelete]
  | cons kv rest ih =>
    obtain ⟨k', v'⟩ := kv
    by_cases hk : k' = k <;> simp [mapDelete, hk] <;> omega

theorem length_mapSet_le {K V : Type} [DecidableEq K] (l : List (K × V)) (k : K) (v : V) :
    (mapSet l k v).length ≤ l.length + 1 := by
  induction l with
  | nil => simp [mapSet]
  | cons kv rest ih =>
    obtain ⟨k', v'⟩ := kv
    by_cases hk : k' = k <;> simp [mapSet, hk] <;> omega

/-! ## `LRUCache` lemmas -/

namespace LRUCache

theorem step_maxSize {K V : Type} [DecidableEq K] (c : LRUCache K V) (op : Op K V) :
    (step c op).maxSize = c.maxSize := by
  cases op with
  | get k =>
    simp only [step, get]
    cases (mapGet c.entries k).join <;> rfl
  | set k v => rfl
  | clear => rfl

theorem run_maxSize {K V : Type} [DecidableEq K] (c : LRUCache K V) (ops : List (Op K V)) :
    (run c ops).maxSize = c.maxSize := by
  induction ops generalizing c with
  | nil => rfl
  | cons op rest ih =>
    show (run (step c op) rest).maxSize = c.maxSize
    rw [ih, step_maxSize]

theorem size_set_le {K V : Type} [DecidableEq K] (c : LRUCache K V) (k : K) (v : Option V)
    (hpos : 1 ≤ c.maxSize) (hle : c.size ≤ c.maxSize) : (c.set k v).size ≤ c.maxSize := by
  have hle' : c.entries.length ≤ c.maxSize := hle
  show (c.set k v).entries.length ≤ c.maxSize
  simp only [set]
  by_cases hpres : (mapGet c.entries k).isSome
  · simp only [if_pos hpres]
    have h1 := length_mapDelete_of_isSome hpres
    have h2 := length_mapSet_le (mapDelete c.entries k) k v
    omega
  · simp only [if_neg hpres]
    by_cases hfull : c.entries.length ≥ c.maxSize
    · simp only [if_pos hfull]
      match hent : c.entries with
      | [] =>
        rw [hent] at hfull
        simp only [List.length_nil] at hfull
        omega
      | (k0, v0) :: rest =>
        simp only [List.head?_cons]
        have hdel : mapDelete ((k0, v0) :: rest) k0 = rest := by simp [mapDelete]
        rw [hdel]
        have h2 := length_mapSet_le rest k v
        rw [hent] at hle'
        simp only [List.length_cons] at hle'
        omega
    · simp only [if_neg hfull]
      have h2 := length_mapSet_le c.entries k v
      omega

theorem size_get_le {K V : Type} [DecidableEq K] (c : LRUCache K V) (k : K)
    (hle : c.size ≤ c.maxSize) : (c.get k).2.size ≤ c.maxSize := by
  have hle' : c.entries.length ≤ c.maxSize := hle
  show (c.get k).2.entries.length ≤ c.maxSize
  unfold get
  match hj : (mapGet c.entries k).join with
  | none => exact hle'
  | some v =>
    simp only
    have hpres : (mapGet c.entries k).isSome := by
      cases hg : mapGet c.entries k with
      | none => rw [hg] at hj; simp [Option.join] at hj
      | some w => simp
    have h1 := length_mapDelete_of_isSome hpres
    have h2 := length_mapSet_le (mapDelete c.entries k) k (some v)
    omega

theorem size_step_le {K V : Type} [DecidableEq K] (c : LRUCache K V) (op : Op K V)
    (hpos : 1 ≤ c.maxSize) (hle : c.size ≤ c.maxSize) : (step c op).size ≤ c.maxSize := by
  cases op with
  | get k => exact size_get_le c k hle
  | set k v => exact size_set_le c k v hpos hle
  | clear => simpa [step, clear, size] using Nat.zero_le _

theorem size_run_le {K V : Type} [DecidableEq K] (c : LRUCache K V) (ops : List (Op K V))
    (hpos : 1 ≤ c.maxSize) (hle : c.size ≤ c.maxSize) : (run c ops).size ≤ c.maxSize := by
  induction ops generalizing c with
  | nil => exact hle
  | cons op rest ih =>
    show (run (step c op) rest).size ≤ c.maxSize
    have h1 := step_maxSize c op
    have h2 := size_step_le c op hpos hle
    have := ih (step c op) (h1 ▸ hpos) (h1 ▸ h2)
    rwa [h1] at this

theorem set_entries_of_new_full {K V : Type} [DecidableEq K] (c : LRUCache K V) (k : K)
    (v : Option V) (habs : mapGet c.entries k = none) (hfull : c.maxSize ≤ c.entries.length)
    (hpos : 1 ≤ c.maxSize) : (c.set k v).entries = c.entries.tail ++ [(k, v)] := by
  unfold set
  have hnotSome : ¬(mapGet c.entries k).isSome := by simp [habs]
  match hent : c.entries with
  | [] =>
    rw [hent] at hfull
    simp at hfull
    omega
  | (k0, v0) :: rest =>
    rw [hent] at habs
    have hge : (((k0, v0) :: rest : List (K × Option V)).length ≥ c.maxSize) := by
      rw [← hent]; exact hfull
    simp only [hent, habs, Option.isSome_none, Bool.false_eq_true, if_false, if_pos hge,
      List.head?_cons]
    have hdel : mapDelete ((k0, v0) :: rest) k0 = rest := by simp [mapDelete]
    rw [hdel]
    have hk : k ∉ (rest.map Prod.fst) := by
      have := mapGet_eq_none.mp habs
      simp only [List.map_cons, List.mem_cons] at this
      push_neg at this
      exact this.2
    simp [mapSet_of_not_mem hk v]

theorem get_entries_of_stored {K V : Type} [DecidableEq K] (c : LRUCache K V) (k : K) (v : V)
    (hnd : (c.entries.map Prod.fst).Nodup) (hst : mapGet c.entries k = some (some v)) :
    (c.get k).1 = some v ∧
      (c.get k).2.entries = mapDelete c.entries k ++ [(k, some v)] := by
  unfold get
  rw [hst]
  have hj : (some (some v) : Option (Option V)).join = some v := rfl
  rw [hj]
  have hnot : k ∉ ((mapDelete c.entries k).map Prod.fst) :=
    mapGet_eq_none.mp (mapGet_mapDelete_self hnd)
  simp [mapSet_of_not_mem hnot (some v)]

theorem get_of_stored_undef {K V : Type} [DecidableEq K] (c : LRUCache K V) (k : K)
    (hst : mapGet c.entries k = some none) : (c.get k).1 = none ∧ (c.get k).2 = c := by
  unfold get
  rw [hst]
  simp [Option.join]

theorem set_getLast {K V : Type} [DecidableEq K] (c : LRUCache K V) (k : K) (v : Option V)
    (hnd : (c.entries.map Prod.fst).Nodup) :
    (c.set k v).entries.getLast? = some (k, v) := by
  unfold set
  by_cases hpres : (mapGet c.entries k).isSome
  · simp only [if_pos hpres]
    have hnot : k ∉ ((mapDelete c.entries k).map Prod.fst) :=
      mapGet_eq_none.mp (mapGet_mapDelete_self hnd)
    simp [mapSet_of_not_mem hnot v]
  · simp only [if_neg hpres]
    have habs : mapGet c.entries k = none := by
      cases hg : mapGet c.entries k with
      | none => rfl
      | some w => rw [hg] at hpres; simp at hpres
    have hk : k ∉ (c.entries.map Prod.fst) := mapGet_eq_none.mp habs
    by_cases hfull : c.entries.length ≥ c.maxSize
    · simp only [if_pos hfull]
      match hent : c.entries with
      | [] => simp [mapSet]
      | (k0, v0) :: rest =>
        simp only [List.head?_cons]
        have hknd : k ∉ ((mapDelete ((k0, v0) :: rest) k0).map Prod.fst) := by
          intro hmem
          rw [hent] at hk
          exact hk (keys_mapDelete_subset hmem)
        simp [mapSet_of_not_mem hknd v]
    · simp only [if_neg hfull]
      simp [mapSet_of_not_mem hk v]

end LRUCache

/-! ## Claims C1–C4 -/

/-- Claim C1 (confirmed): the entry list is the recency order — a get
that returns a value re-appends its key at the most-recently-used end,
and every set appends the written key there — so when `set` is called
with a new key while `size == capacity`, exactly one entry is evicted,
namely the one at the least-recently-touched front; and the concrete
capacity-2 run `set(a,1); set(b,2); get(a); set(c,3)` leaves `b` absent
while `get(a) = 1` and `get(c) = 3`. -/
theorem claim_C1 :
    (∀ (K V : Type) (i : DecidableEq K) (c : LRUCache K V) (k : K) (v : Option V),
        mapGet c.entries k = none → c.maxSize ≤ c.entries.length → 1 ≤ c.maxSize →
          (c.set k v).entries = c.entries.tail ++ [(k, v)] ∧
          (c.set k v).size = c.entries.length) ∧
    (∀ (K V : Type) (i : DecidableEq K) (c : LRUCache K V) (k : K) (v : V),
        (c.entries.map Prod.fst).Nodup → mapGet c.entries k = some (some v) →
          (c.get k).2.entries = mapDelete c.entries k ++ [(k, some v)]) ∧
    (∀ (K V : Type) (i : DecidableEq K) (c : LRUCache K V) (k : K) (v : Option V),
        (c.entries.map Prod.fst).Nodup → (c.set k v).entries.getLast? = some (k, v)) ∧
    (((LRUCache.run (LRUCache.fresh String Nat 2)
        [.set "a" (some 1), .set "b" (some 2), .get "a", .set "c" (some 3)]).get "b").1 = none ∧
     ((LRUCache.run (LRUCache.fresh String Nat 2)
        [.set "a" (some 1), .set "b" (some 2), .get "a", .set "c" (some 3)]).get "a").1 = some 1 ∧
     ((LRUCache.run (LRUCache.fresh String Nat 2)
        [.set "a" (some 1), .set "b" (some 2), .get "a", .set "c" (some 3)]).get "c").1 = some 3) := by
  refine ⟨?_, ?_, ?_, by decide⟩
  · intro K V i c k v habs hfull hpos
    refine ⟨LRUCache.set_entries_of_new_full c k v habs hfull hpos, ?_⟩
    rw [LRUCache.size, LRUCache.set_entries_of_new_full c k v habs hfull hpos]
    have hne : c.entries ≠ [] := by
      intro h
      rw [h] at hfull
      simp at hfull
      omega
    simp [List.length_tail]
    have : 1 ≤ c.entries.length := List.length_pos.mpr hne
    omega
  · intro K V i c k v hnd hst
    exact (LRUCache.get_entries_of_stored c k v hnd hst).2
  · intro K V i c k v hnd
    exact LRUCache.set_getLast c k v hnd

/-- Claim C1 witness: the general conjuncts applied to concrete caches. -/
theorem claim_C1_witness :
    ((⟨2, [("x", some 5), ("y", some 6)]⟩ : LRUCache String Nat).set "z" (some 7)).entries
        = [("y", some 6), ("z", some 7)] ∧
    (((⟨2, [("x", some 5), ("y", some 6)]⟩ : LRUCache String Nat).get "x").2.entries
        = [("y", some 6), ("x", some 5)]) ∧
    ((⟨2, [("x", some 5), ("y", some 6)]⟩ : LRUCache String Nat).set "y" none).entries.getLast?
        = some ("y", none) := by
  refine ⟨?_, ?_, ?_⟩
  · exact (claim_C1.1 String Nat inferInstance ⟨2, [("x", some 5), ("y", some 6)]⟩ "z" (some 7)
      (by decide) (by decide) (by decide)).1
  · exact claim_C1.2.1 String Nat inferInstance ⟨2, [("x", some 5), ("y", some 6)]⟩ "x" 5
      (by decide) (by decide)
  · exact claim_C1.2.2.1 String Nat inferInstance ⟨2, [("x", some 5), ("y", some 6)]⟩ "y" none
      (by decide)

/-- Claim C2 (confirmed): from a fresh cache of capacity `C ≥ 1`, after
any finite sequence of get/set/clear operations the entry count is at
most `C` (it is a `Nat`, hence also ≥ 0); a set on an already-present
key updates the value in place without changing the size; and concretely
`set(a,1); set(b,2); set(a,99)` on capacity 2 gives size 2 and
`get(a) = 99`. -/
theorem claim_C2 :
    (∀ (K V : Type) (i : DecidableEq K) (C : Nat), 1 ≤ C →
        ∀ ops : List (LRUCache.Op K V),
          (LRUCache.run (LRUCache.fresh K V C) ops).size ≤ C) ∧
    (∀ (K V : Type) (i : DecidableEq K) (c : LRUCache K V) (k : K) (v w : Option V),
        (c.entries.map Prod.fst).Nodup → mapGet c.entries k = some w →
          (c.set k v).size = c.size ∧ mapGet (c.set k v).entries k = some v) ∧
    ((LRUCache.run (LRUCache.fresh String Nat 2)
        [.set "a" (some 1), .set "b" (some 2), .set "a" (some 99)]).size = 2 ∧
     ((LRUCache.run (LRUCache.fresh String Nat 2)
        [.set "a" (some 1), .set "b" (some 2), .set "a" (some 99)]).get "a").1 = some 99) := by
  refine ⟨?_, ?_, by decide⟩
  · intro K V i C hC ops
    exact LRUCache.size_run_le _ ops hC (by simp [LRUCache.fresh, LRUCache.size])
  · intro K V i c k v w hnd hpres
    have hsome : (mapGet c.entries k).isSome := by simp [hpres]
    have hnot : k ∉ ((mapDelete c.entries k).map Prod.fst) :=
      mapGet_eq_none.mp (mapGet_mapDelete_self hnd)
    constructor
    · show (LRUCache.set c k v).size = c.size
      unfold LRUCache.set
      simp only [if_pos hsome]
      rw [LRUCache.size, LRUCache.size, mapSet_of_not_mem hnot v]
      have h1 := length_mapDelete_of_isSome hsome
      simp only [List.length_append, List.length_cons, List.length_nil]
      omega
    · show mapGet (LRUCache.set c k v).entries k = some v
      unfold LRUCache.set
      simp only [if_pos hsome]
      exact mapGet_mapSet_self _ k v

/-- Claim C2 witness: the general conjuncts applied to concrete inputs. -/
theorem claim_C2_witness :
    (LRUCache.run (LRUCache.fresh Nat Nat 3) [.set 1 (some 10), .get 1, .clear]).size ≤ 3 ∧
    ((⟨2, [("x", some 5), ("y", some 6)]⟩ : LRUCache String Nat).set "x" (some 9)).size
        = (⟨2, [("x", some 5), ("y", some 6)]⟩ : LRUCache String Nat).size := by
  constructor
  · exact claim_C2.1 Nat Nat inferInstance 3 (by decide) [.set 1 (some 10), .get 1, .clear]
  · exact (claim_C2.2.1 String Nat inferInstance ⟨2, [("x", some 5), ("y", some 6)]⟩
      "x" (some 9) (some 5) (by decide) (by decide)).1

/-- Claim C4 (code bug): `Memoize`'s documentation says it implements
least-recently-used eviction, but a cache hit never refreshes recency
(plain `Map` lookup, no delete-and-reinsert), so eviction is by
insertion order.  With `maxCacheSize = 2`, the identity key function and
calls keyed `a, b, a, c`, the call with key `c` evicts `a` — the key
that was just hit — whereas an LRU cache would evict `b`.  The theorem
evaluates the embedded code on that run. -/
theorem claim_C4_code_bug :
    mapGet (Memo.memoRun id id 2 ["a", "b", "a", "c"]) "a" = none ∧
    Memo.memoRun id id 2 ["a", "b", "a", "c"] = [("b", "b"), ("c", "c")] := by
  decide

/-- Claim C3 counterexample: store the JavaScript value `undefined`
under key `a` (capacity 2), then `get(a)`.  The key is present and the
get is the claim's "successful get", but because the code only refreshes
recency when `value !== undefined`, `a` stays at the least-recently-used
front (the last entry is `b`, not `a`), and the very next insertion
evicts `a` — the opposite of "last of the current entries to be chosen
for eviction". -/
theorem claim_C3_counterexample :
    ((LRUCache.run (LRUCache.fresh String Nat 2)
        [.set "a" none, .set "b" (some 2), .get "a"]).entries
      = [("a", none), ("b", some 2)]) ∧
    ((LRUCache.run (LRUCache.fresh String Nat 2)
        [.set "a" none, .set "b" (some 2), .get "a"]).entries.getLast?.map Prod.fst
      ≠ some "a") ∧
    (mapGet (LRUCache.run (LRUCache.fresh String Nat 2)
        [.set "a" none, .set "b" (some 2), .get "a", .set "c" (some 3)]).entries "a"
      = none) := by
  decide

/-- Claim C3 (amended): a `get` that finds a defined (non-`undefined`)
stored value moves that key to the most-recently-used end, and any `set`
of a key leaves that key at the most-recently-used end; but a `get` of a
present key whose stored value is `undefined` leaves the cache — and
hence the key's eviction position — entirely unchanged. -/
theorem claim_C3 :
    (∀ (K V : Type) (i : DecidableEq K) (c : LRUCache K V) (k : K) (v : V),
        (c.entries.map Prod.fst).Nodup → mapGet c.entries k = some (some v) →
          (c.get k).1 = some v ∧
          (c.get k).2.entries = mapDelete c.entries k ++ [(k, some v)] ∧
          (c.get k).2.entries.getLast? = some (k, some v)) ∧
    (∀ (K V : Type) (i : DecidableEq K) (c : LRUCache K V) (k : K) (v : Option V),
        (c.entries.map Prod.fst).Nodup →
          (c.set k v).entries.getLast? = some (k, v)) ∧
    (∀ (K V : Type) (i : DecidableEq K) (c : LRUCache K V) (k : K),
        mapGet c.entries k = some none → (c.get k).2 = c) := by
  refine ⟨?_, ?_, ?_⟩
  · intro K V i c k v hnd hst
    obtain ⟨h1, h2⟩ := LRUCache.get_entries_of_stored c k v hnd hst
    refine ⟨h1, h2, ?_⟩
    rw [h2]
    exact List.getLast?_concat _
  · intro K V i c k v hnd
    exact LRUCache.set_getLast c k v hnd
  · intro K V i c k hst
    exact (LRUCache.get_of_stored_undef c k hst).2

/-- Claim C3 witness: the amended conjuncts applied to concrete caches,
including one holding a stored `undefined`. -/
theorem claim_C3_witness :
    ((⟨2, [("a", none), ("b", some 2)]⟩ : LRUCache String Nat).get "b").2.entries
      = [("a", none), ("b", some 2)] ∧
    ((⟨2, [("a", none), ("b", some 2)]⟩ : LRUCache String Nat).set "a" (some 7)).entries.getLast?
      = some ("a", some 7) ∧
    ((⟨2, [("a", none), ("b", some 2)]⟩ : LRUCache String Nat).get "a").2
      = (⟨2, [("a", none), ("b", some 2)]⟩ : LRUCache String Nat) := by
  refine ⟨?_, ?_, ?_⟩
  · exact (claim_C3.1 String Nat inferInstance ⟨2, [("a", none), ("b", some 2)]⟩ "b" 2
      (by decide) (by decide)).2.1
  · exact claim_C3.2.1 String Nat inferInstance ⟨2, [("a", none), ("b", some 2)]⟩ "a" (some 7)
      (by decide)
  · exact claim_C3.2.2 String Nat inferInstance ⟨2, [("a", none), ("b", some 2)]⟩ "a" (by decide)

/-- Claim C9 counterexample: `ObjectEquals(new Date(0), {})` and
`ObjectEquals(/a/g, {})` both return `true`, not `false`: only the
array/non-array category mismatch is checked explicitly, and a `Date` or
`RegExp` compared against a plain object falls through to the generic
own-enumerable-key comparison, where both sides have zero keys. -/
theorem claim_C9_counterexample :
    JSVal.ObjectEquals (.date 0) (.obj .nil) = true ∧
    JSVal.ObjectEquals (.regexp "/a/g") (.obj .nil) = true := by
  decide

/-- Claim C9 (amended): when one operand is an array and the other a
non-array object-typed value (plain keyed map, `Date`, or `RegExp`),
`ObjectEquals` returns `false`; but a `Date` or `RegExp` compared
against a plain keyed map is not category-rejected — it is compared by
own enumerable keys (of which a `Date`/`RegExp` has none), so the result
is `true` exactly when the map has no own keys. -/
theorem claim_C9 :
    (∀ (xs : JSList) (b : JSVal),
        JSVal.typeof b = "object" → JSVal.isArrayv b = false → JSVal.isNullv b = false →
          JSVal.ObjectEquals (.arr xs) b = false ∧ JSVal.ObjectEquals b (.arr xs) = false) ∧
    (∀ (t : Int) (fs : JSFields),
        JSVal.ObjectEquals (.date t) (.obj fs) = decide (JSVal.lenF fs = 0)) ∧
    (∀ (r : String) (fs : JSFields),
        JSVal.ObjectEquals (.regexp r) (.obj fs) = decide (JSVal.lenF fs = 0)) := by
  refine ⟨?_, ?_, ?_⟩
  · intro xs b h1 h2 h3
    cases b with
    | null => simp [JSVal.isNullv] at h3
    | undef => simp [JSVal.typeof] at h1
    | bool x => simp [JSVal.typeof] at h1
    | num n => simp [JSVal.typeof] at h1
    | nan => simp [JSVal.typeof] at h1
    | str s => simp [JSVal.typeof] at h1
    | arr ys => simp [JSVal.isArrayv] at h2
    | date t =>
      constructor <;>
        simp [JSVal.ObjectEquals, JSVal.objectEqualsF, JSVal.strictEq, JSVal.isNaNv,
          JSVal.isNullv, JSVal.isUndefv, JSVal.typeof, JSVal.sizev]
    | regexp r =>
      constructor <;>
        simp [JSVal.ObjectEquals, JSVal.objectEqualsF, JSVal.strictEq, JSVal.isNaNv,
          JSVal.isNullv, JSVal.isUndefv, JSVal.typeof, JSVal.sizev]
    | obj fs =>
      constructor <;>
        simp [JSVal.ObjectEquals, JSVal.objectEqualsF, JSVal.strictEq, JSVal.isNaNv,
          JSVal.isNullv, JSVal.isUndefv, JSVal.typeof, JSVal.sizev]
  · intro t fs
    simp only [JSVal.ObjectEquals, JSVal.objectEqualsF, JSVal.strictEq, JSVal.isNaNv,
      JSVal.isNullv, JSVal.isUndefv, JSVal.typeof, JSVal.sizev, JSVal.jsKeysLen,
      JSVal.objectEqualsKeysF]
    simp [eq_comm]
  · intro r fs
    simp only [JSVal.ObjectEquals, JSVal.objectEqualsF, JSVal.strictEq, JSVal.isNaNv,
      JSVal.isNullv, JSVal.isUndefv, JSVal.typeof, JSVal.sizev, JSVal.jsKeysLen,
      JSVal.objectEqualsKeysF]
    simp [eq_comm]

/-- Claim C9 witness: the array clause applied at a concrete pair. -/
theorem claim_C9_witness :
    JSVal.ObjectEquals (.arr .nil) (.date 0) = false ∧
    JSVal.ObjectEquals (.date 0) (.arr .nil) = false :=
  claim_C9.1 .nil (.date 0) (by decide) (by decide) (by decide)

/-! ## Clone key-safety (C6) -/

theorem safe_not_claimDangerous {k : String} (h : SecUtils.isPropertyKeySafe k = true) :
    claimDangerous k = false := by
  unfold SecUtils.isPropertyKeySafe at h
  unfold claimDangerous
  split at h
  · exact absurd h (by simp)
  · split at h
    · exact absurd h (by simp)
    · rename_i h1 h2
      simp only [Bool.not_eq_true] at h1 h2
      rw [h1, h2]
      rfl

theorem treeSafeL_snoc : ∀ (acc : CTreeList) (t : CTree),
    treeSafeL (snocL acc t) = (treeSafeL acc && treeSafeB t)
  | .nil, t => by simp [snocL, treeSafeL]
  | .cons x xs, t => by
    simp [snocL, treeSafeL, treeSafeL_snoc xs t, Bool.and_assoc]

theorem treeSafeF_snoc : ∀ (acc : CTreeFields) (k : String) (t : CTree),
    treeSafeF (snocF acc k t) =
      (treeSafeF acc && (!claimDangerous k && treeSafeB t))
  | .nil, k, t => by simp [snocF, treeSafeF]
  | .cons k2 v fs, k, t => by
    simp [snocF, treeSafeF, treeSafeF_snoc fs k t, Bool.and_assoc]

theorem cloneElems_safe (cl : List Nat → HVal → Except CloneErr (CTree × List Nat))
    (hcl : ∀ vis x r vis2, cl vis x = .ok (r, vis2) → treeSafeB r = true) :
    ∀ (xs : List HVal) (acc : CTreeList) (visited : List Nat) (r : CTree) (vis2 : List Nat),
      treeSafeL acc = true → cloneElems cl xs acc visited = .ok (r, vis2) →
        treeSafeB r = true := by
  intro xs
  induction xs with
  | nil =>
    intro acc visited r vis2 hacc hok
    simp only [cloneElems, Except.ok.injEq, Prod.mk.injEq] at hok
    rw [← hok.1]
    simpa [treeSafeB] using hacc
  | cons x rest ih =>
    intro acc visited r vis2 hacc hok
    simp only [cloneElems] at hok
    cases hx : cl visited x with
    | error e => rw [hx] at hok; simp [Bind.bind, Except.bind] at hok
    | ok p =>
      rw [hx] at hok
      simp only [Bind.bind, Except.bind, pure, Except.pure] at hok
      have hsafe := hcl visited x p.1 p.2 (by rw [hx])
      refine ih (snocL acc p.1) p.2 r vis2 ?_ hok
      rw [treeSafeL_snoc, hacc, hsafe]
      rfl

theorem cloneFields_safe (cl : List Nat → HVal → Except CloneErr (CTree × List Nat))
    (hcl : ∀ vis x r vis2, cl vis x = .ok (r, vis2) → treeSafeB r = true) :
    ∀ (kvs : List (String × HVal)) (acc : CTreeFields) (visited : List Nat) (r : CTree)
      (vis2 : List Nat),
      (∀ kv ∈ kvs, SecUtils.isPropertyKeySafe kv.1 = true) → treeSafeF acc = true →
      cloneFields cl kvs acc visited = .ok (r, vis2) → treeSafeB r = true := by
  intro kvs
  induction kvs with
  | nil =>
    intro acc visited r vis2 hkeys hacc hok
    simp only [cloneFields, Except.ok.injEq, Prod.mk.injEq] at hok
    rw [← hok.1]
    simpa [treeSafeB] using hacc
  | cons kv rest ih =>
    intro acc visited r vis2 hkeys hacc hok
    simp only [cloneFields] at hok
    cases hx : cl visited kv.2 with
    | error e => rw [hx] at hok; simp [Bind.bind, Except.bind] at hok
    | ok p =>
      rw [hx] at hok
      simp only [Bind.bind, Except.bind, pure, Except.pure] at hok
      have hsafe := hcl visited kv.2 p.1 p.2 (by rw [hx])
      have hkey : claimDangerous kv.1 = false :=
        safe_not_claimDangerous (hkeys kv (List.mem_cons_self kv rest))
      refine ih (snocF acc kv.1 p.1) p.2 r vis2
        (fun kv2 hm => hkeys kv2 (List.mem_cons_of_mem kv hm)) ?_ hok
      rw [treeSafeF_snoc, hacc, hkey, hsafe]
      rfl

theorem cloneV_safe (h : Heap) :
    ∀ (fuel : Nat) (visited : List Nat) (v : HVal) (r : CTree) (vis2 : List Nat),
      cloneV h fuel visited v = .ok (r, vis2) → treeSafeB r = true := by
  intro fuel
  induction fuel with
  | zero =>
    intro visited v r vis2 hok
    simp [cloneV] at hok
  | succ fuel ih =>
    intro visited v r vis2 hok
    match v with
    | .prim p =>
      simp only [cloneV, Except.ok.injEq, Prod.mk.injEq] at hok
      rw [← hok.1]
      rfl
    | .ref a =>
      simp only [cloneV] at hok
      by_cases hv : visited.contains a
      · rw [if_pos hv] at hok
        simp at hok
      · rw [if_neg hv] at hok
        cases hg : heapGet h a with
        | none => rw [hg] at hok; simp at hok
        | some node =>
          rw [hg] at hok
          match node with
          | .date t =>
            simp only [Except.ok.injEq, Prod.mk.injEq] at hok
            rw [← hok.1]
            rfl
          | .other tag => simp at hok
          | .arr xs =>
            exact cloneElems_safe (cloneV h fuel)
              (fun vis x r2 vis3 hx => ih vis x r2 vis3 hx)
              xs .nil (a :: visited) r vis2 rfl hok
          | .obj fs =>
            refine cloneFields_safe (cloneV h fuel)
              (fun vis x r2 vis3 hx => ih vis x r2 vis3 hx)
              (filterDangerousKeys fs) .nil (a :: visited) r vis2 ?_ rfl hok
            intro kv hm
            unfold filterDangerousKeys at hm
            exact (List.mem_filter.mp hm).2

/-- Claim C6 (confirmed): every successful `ObjectClone` result
contains, at every nesting depth, no own key among
`__proto__`/`constructor`/`prototype` and none beginning with two
underscores (`treeSafeB` states exactly that property); concretely,
cloning the `JSON.parse('\x7b"__proto__":\x7b"polluted":true\x7d\x7d')`
payload yields an object with no own keys at all, so nothing is ever
assigned through `__proto__` and the shared `Object` prototype is not
polluted (`(\x7b\x7d).polluted` stays undefined). -/
theorem claim_C6 :
    (∀ (h : Heap) (v : HVal) (r : CTree), ObjectClone h v = .ok r → treeSafeB r = true) ∧
    ObjectClone hProto (.ref 0) = .ok (.obj .nil) := by
  constructor
  · intro h v r hok
    unfold ObjectClone at hok
    cases hc : cloneV h (heapLen h + 2) [] v with
    | error e => rw [hc] at hok; simp [Except.map] at hok
    | ok p =>
      rw [hc] at hok
      simp only [Except.map, Except.ok.injEq] at hok
      rw [← hok]
      exact cloneV_safe h _ [] v p.1 p.2 hc
  · rfl

/-- Claim C6 witness: the general statement applied to the prototype
payload. -/
theorem claim_C6_witness : treeSafeB (.obj .nil) = true :=
  claim_C6.1 hProto (.ref 0) (.obj .nil) claim_C6.2

/-! ## Cached-wrapper guard behaviour (C10) -/

/-- Claim C10 (confirmed): the wrapper returned by `ObjectFilterCached`
short-circuits invalid inputs before any hashing or cache access — both
guards sit before the `ObjectHash` calls and before the bucket lookup in
the definition — resolving to `false` for a cursor that is null,
undefined or not an object (exactly the values with `!cursor ||
typeof cursor !== 'object'`), and to `true` for a valid cursor with a
null/undefined/non-object filter; in both cases the returned cache state
is the argument state, untouched. -/
theorem claim_C10 :
    ∀ (objectFilter : HVal → HVal → Bool) (maxCacheSize : Nat) (h : Heap)
      (st : CacheState Bool) (cursor filter : HVal),
      ((htruthy cursor = false ∨ htypeof cursor ≠ "object") →
          ObjectFilterCachedStep objectFilter maxCacheSize h st cursor filter
            = .ok (false, st)) ∧
      (htruthy cursor = true → htypeof cursor = "object" →
        (htruthy filter = false ∨ htypeof filter ≠ "object") →
          ObjectFilterCachedStep objectFilter maxCacheSize h st cursor filter
            = .ok (true, st)) := by
  intro objectFilter maxCacheSize h st cursor filter
  constructor
  · intro hc
    rcases hc with hc | hc
    · simp [ObjectFilterCachedStep, hc]
    · simp [ObjectFilterCachedStep, hc]
  · intro h1 h2 hc
    rcases hc with hc | hc
    · simp [ObjectFilterCachedStep, h1, h2, hc]
    · simp [ObjectFilterCachedStep, h1, h2, hc]

/-- Claim C10 witness: both guard clauses applied at concrete inputs. -/
theorem claim_C10_witness :
    ObjectFilterCachedStep (fun _ _ => false) 1000 hMix ⟨[], 0⟩ (.prim .null) (.ref 1)
      = .ok (false, ⟨[], 0⟩) ∧
    ObjectFilterCachedStep (fun _ _ => false) 1000 hMix ⟨[], 0⟩ (.ref 1) (.prim .undef)
      = .ok (true, ⟨[], 0⟩) := by
  constructor
  · exact (claim_C10 (fun _ _ => false) 1000 hMix ⟨[], 0⟩ (.prim .null) (.ref 1)).1
      (Or.inl (by decide))
  · exact (claim_C10 (fun _ _ => false) 1000 hMix ⟨[], 0⟩ (.ref 1) (.prim .undef)).2
      (by decide) (by decide) (Or.inl (by decide))

/-! ## Hash-failure behaviour of the cached wrappers (C7) -/

/-- Claim C7 counterexample: with the heap `hMix` (a self-referential
object at address 0, plain objects at 1 and 2) and fresh wrapper states:
a circular *filter* makes `ObjectFilterCached`'s wrapper raise — the
`ObjectHash(filter)` call sits outside the try/catch, so the call does
not resolve with the underlying result; and a circular *cursor* given to
`MapObjectCached`'s wrapper resolves with the uncached result but leaves
the caches changed — a new empty inner bucket for the mapper key has
been created. -/
theorem claim_C7_counterexample :
    ObjectFilterCachedStep (fun _ _ => true) 1000 hMix ⟨[], 0⟩ (.ref 1) (.ref 0)
      = .error () ∧
    MapObjectCachedStep (fun _ => (7 : Nat)) 0 1000 hMix ⟨[], 0⟩ (.ref 0) "mapperKey"
      = (7, ⟨[("mapperKey", [])], 0⟩) ∧
    (⟨[("mapperKey", [])], 0⟩ : CacheState Nat) ≠ ⟨[], 0⟩ := by
  refine ⟨by rfl, by rfl, by decide⟩

/-- Claim C7 (amended): when hashing the *cursor* raises, caching is
bypassed: the call still resolves with the underlying uncached
`ObjectFilter`/`MapObject` result, no error propagates, no cache entry
is stored and the entry count is unchanged — but the call may create a
new empty inner bucket for a first-seen filter/mapper key
(`ensureBucket`); whereas in `ObjectFilterCached` the filter is hashed
outside the try/catch, so a hash failure on the *filter* propagates to
the caller (`MapObjectCached` never hashes its mapper and cannot
raise). -/
theorem claim_C7 :
    (∀ (objectFilter : HVal → HVal → Bool) (maxCacheSize : Nat) (h : Heap)
       (st : CacheState Bool) (cursor filter : HVal) (fh : String),
        htruthy cursor = true → htypeof cursor = "object" →
        htruthy filter = true → htypeof filter = "object" →
        ObjectHash h filter = .ok fh → ObjectHash h cursor = .error () →
          ObjectFilterCachedStep objectFilter maxCacheSize h st cursor filter
            = .ok (objectFilter cursor filter,
                   ⟨ensureBucket st.cache (strTake fh 16), st.total⟩)) ∧
    (∀ (objectFilter : HVal → HVal → Bool) (maxCacheSize : Nat) (h : Heap)
       (st : CacheState Bool) (cursor filter : HVal),
        htruthy cursor = true → htypeof cursor = "object" →
        htruthy filter = true → htypeof filter = "object" →
        ObjectHash h filter = .error () →
          ObjectFilterCachedStep objectFilter maxCacheSize h st cursor filter
            = .error ()) ∧
    (∀ (R : Type) (mapObject : HVal → R) (emptyR : R) (maxCacheSize : Nat) (h : Heap)
       (st : CacheState R) (cursor : HVal) (mk : String),
        htruthy cursor = true → htypeof cursor = "object" →
        ObjectHash h cursor = .error () →
          MapObjectCachedStep mapObject emptyR maxCacheSize h st cursor mk
            = (mapObject cursor, ⟨ensureBucket st.cache mk, st.total⟩)) := by
  refine ⟨?_, ?_, ?_⟩
  · intro objectFilter maxCacheSize h st cursor filter fh h1 h2 h3 h4 hfh hcur
    simp only [ObjectFilterCachedStep, h1, h2, h3, h4, hfh, hcur]
    simp only [ensureBucket]
    cases hbk : mapGet st.cache (strTake fh 16) <;> simp [hbk]
  · intro objectFilter maxCacheSize h st cursor filter h1 h2 h3 h4 hfh
    simp only [ObjectFilterCachedStep, h1, h2, h3, h4, hfh]
    simp
  · intro R mapObject emptyR maxCacheSize h st cursor mk h1 h2 hcur
    simp only [MapObjectCachedStep, h1, h2, hcur]
    simp only [ensureBucket]
    cases hbk : mapGet st.cache mk <;> simp [hbk]

/-- Claim C7 witness: the three amended clauses applied at concrete
inputs over `hMix`. -/
theorem claim_C7_witness :
    ObjectFilterCachedStep (fun _ _ => true) 1000 hMix ⟨[], 0⟩ (.ref 0) (.ref 1)
      = .ok (true, ⟨[(fkA, [])], 0⟩) ∧
    ObjectFilterCachedStep (fun _ _ => true) 1000 hMix ⟨[], 0⟩ (.ref 1) (.ref 0)
      = .error () ∧
    MapObjectCachedStep (fun _ => (7 : Nat)) 0 1000 hMix ⟨[], 0⟩ (.ref 0) "mk2"
      = (7, ⟨[("mk2", [])], 0⟩) := by
  refine ⟨?_, ?_, ?_⟩
  · exact claim_C7.1 (fun _ _ => true) 1000 hMix ⟨[], 0⟩ (.ref 0) (.ref 1)
      "\x7b\"a\":1\x7d" (by decide) (by decide) (by decide) (by decide) (by rfl) (by rfl)
  · exact claim_C7.2.1 (fun _ _ => true) 1000 hMix ⟨[], 0⟩ (.ref 1) (.ref 0)
      (by decide) (by decide) (by decide) (by decide) (by rfl)
  · exact claim_C7.2.2 Nat (fun _ => 7) 0 1000 hMix ⟨[], 0⟩ (.ref 0) "mk2"
      (by decide) (by decide) (by rfl)



/-! ## Percentage-sweep eviction (C8) -/

theorem flStep_spec {R : Type} (acc : Option (String × List (String × R)))
    (kv : String × List (String × R))
    (hacc : ∀ b0, acc = some b0 → 1 ≤ b0.2.length) :
    (∀ b1, (match acc with
      | some best => if kv.2.length > best.2.length then some kv else acc
      | none => if kv.2.length > 0 then some kv else none) = some b1 →
        1 ≤ b1.2.length ∧ kv.2.length ≤ b1.2.length ∧ (b1 = kv ∨ acc = some b1) ∧
        (∀ b0, acc = some b0 → b0.2.length ≤ b1.2.length)) ∧
    ((match acc with
      | some best => if kv.2.length > best.2.length then some kv else acc
      | none => if kv.2.length > 0 then some kv else none) = none →
        acc = none ∧ kv.2.length = 0) := by
  rcases acc with _ | b0
  · simp only
    by_cases hgt : kv.2.length > 0
    · rw [if_pos hgt]
      refine ⟨?_, ?_⟩
      · intro b1 hb1
        injection hb1 with he
        subst he
        exact ⟨by omega, le_refl _, Or.inl rfl, by simp⟩
      · intro hn
        cases hn
    · rw [if_neg hgt]
      refine ⟨?_, ?_⟩
      · intro b1 hb1
        cases hb1
      · intro h2
        exact ⟨by trivial, by omega⟩
  · simp only
    have hb0 : 1 ≤ b0.2.length := hacc b0 rfl
    by_cases hgt : kv.2.length > b0.2.length
    · rw [if_pos hgt]
      refine ⟨?_, fun hn => by cases hn⟩
      intro b1 hb1
      injection hb1 with he
      subst he
      refine ⟨by omega, le_refl _, Or.inl rfl, ?_⟩
      intro b2 hb2
      injection hb2 with he2
      subst he2
      omega
    · rw [if_neg hgt]
      refine ⟨?_, fun hn => by cases hn⟩
      intro b1 hb1
      injection hb1 with he
      subst he
      refine ⟨hb0, by omega, Or.inr rfl, ?_⟩
      intro b2 hb2
      injection hb2 with he2
      subst he2
      exact le_refl _

theorem findLargest_fold {R : Type} :
    ∀ (cache : List (String × List (String × R)))
      (acc : Option (String × List (String × R))),
      (∀ b0, acc = some b0 → 1 ≤ b0.2.length) →
      (∀ best, (cache.foldl
          (fun acc kv =>
            match acc with
            | some best => if kv.2.length > best.2.length then some kv else acc
            | none => if kv.2.length > 0 then some kv else none) acc) = some best →
          (best ∈ cache ∨ acc = some best) ∧ 1 ≤ best.2.length ∧
          (∀ p ∈ cache, p.2.length ≤ best.2.length) ∧
          (∀ b0, acc = some b0 → b0.2.length ≤ best.2.length)) := by
  intro cache
  induction cache with
  | nil =>
    intro acc hacc best hb
    exact ⟨Or.inr hb, hacc best hb, by simp,
      fun b0 h0 => by rw [h0] at hb; injection hb with he; subst he; exact le_refl _⟩
  | cons kv rest ih =>
    intro acc hacc best hres
    simp only [List.foldl_cons] at hres
    obtain ⟨hspec1, hspec2⟩ := flStep_spec acc kv hacc
    cases hA2 : (match acc with
      | some best => if kv.2.length > best.2.length then some kv else acc
      | none => if kv.2.length > 0 then some kv else none) with
    | none =>
      rw [hA2] at hres
      obtain ⟨hmem, hpos, hmaxrest, hdom⟩ :=
        ih none (fun b0 h0 => by cases h0) best hres
      obtain ⟨hA, hkv⟩ := hspec2 hA2
      rcases hmem with hmem | hmem
      · refine ⟨Or.inl (List.mem_cons_of_mem kv hmem), hpos, ?_, ?_⟩
        · intro p hp
          rcases List.mem_cons.mp hp with hp | hp
          · rw [hp]; omega
          · exact hmaxrest p hp
        · intro b0 h0
          rw [hA] at h0
          cases h0
      · cases hmem
    | some b1 =>
      rw [hA2] at hres
      obtain ⟨hpos1, hkvle1, hmem1, hdom1⟩ := hspec1 b1 hA2
      obtain ⟨hmem, hpos, hmaxrest, hdom⟩ :=
        ih (some b1) (fun b0 h0 => by injection h0 with he; subst he; exact hpos1)
          best hres
      have hb1le : b1.2.length ≤ best.2.length := hdom b1 rfl
      refine ⟨?_, hpos, ?_, ?_⟩
      · rcases hmem with hmem | hmem
        · exact Or.inl (List.mem_cons_of_mem kv hmem)
        · injection hmem with he
          subst he
          rcases hmem1 with h | h
          · exact Or.inl (h ▸ List.mem_cons_self kv rest)
          · exact Or.inr h
      · intro p hp
        rcases List.mem_cons.mp hp with hp | hp
        · rw [hp]; omega
        · exact hmaxrest p hp
      · intro b0 h0
        have := hdom1 b0 h0
        omega

theorem drop_isEmpty_iff {R : Type} (b : List R) (n : Nat) :
    (b.drop n).isEmpty = true ↔ b.length ≤ n := by
  rw [List.isEmpty_iff, ← List.length_eq_zero, List.length_drop]
  omega

/-- Claim C8 (confirmed): when an insertion pushes the aggregate entry
count above `maxCacheSize` the step function applies
`clearOldestEntries` exactly once (plainly visible in
`ObjectFilterCachedStep`/`MapObjectCachedStep`); the sweep targets the
first inner bucket of maximal size `n ≥ 1`, removes exactly
`entriesToRemoveCount n` entries — `⌈n/5⌉`, which equals
`Math.ceil(n * 0.2)` for every `n` below `2^50` since the rounding error
of the double product is smaller than its distance to the next integer —
all from the front of that bucket's iteration order, leaves every other
bucket untouched, and decrements the total by the same amount.  The
final conjunct runs a full wrapper call on a state with two six-entry
buckets and `maxCacheSize = 2`: one sweep removes `⌈7/5⌉ = 2` entries
from the front of the (first) largest bucket and the call completes with
total 11, still above the limit — the sweep is not repeated. -/
theorem claim_C8 :
    (∀ (R : Type) (st : CacheState R) (k : String) (b : List (String × R)),
        (st.cache.map Prod.fst).Nodup → findLargest st.cache = some (k, b) →
          1 ≤ b.length ∧
          (k, b) ∈ st.cache ∧
          (∀ p ∈ st.cache, p.2.length ≤ b.length) ∧
          mapGet (clearOldestEntries st).cache k =
            (if b.length ≤ entriesToRemoveCount b.length then none
             else some (b.drop (entriesToRemoveCount b.length))) ∧
          (∀ k2, k2 ≠ k → mapGet (clearOldestEntries st).cache k2 = mapGet st.cache k2) ∧
          (clearOldestEntries st).total = st.total - entriesToRemoveCount b.length) ∧
    (∀ n : Nat, 1 ≤ n →
        1 ≤ entriesToRemoveCount n ∧ entriesToRemoveCount n ≤ n) ∧
    (ObjectFilterCachedStep (fun _ _ => true) 2 hMix stBig (.ref 2) (.ref 1)
      = .ok (true,
          ⟨[(fkA, [("o3", true), ("o4", true), ("o5", true), ("o6", true),
              ("\x7b\"b\":2\x7d", true)]),
            ("zz", bucket6 "p")], 11⟩)) := by
  refine ⟨?_, ?_, by rfl⟩
  · intro R st k b hnd hfl
    have hfl2 := hfl
    unfold findLargest at hfl2
    obtain ⟨hmem, hpos, hmax, _⟩ :=
      findLargest_fold st.cache none (fun b0 h0 => by cases h0) (k, b) hfl2
    have hmem2 : (k, b) ∈ st.cache := by
      rcases hmem with h | h
      · exact h
      · cases h
    have hpos2 : 1 ≤ b.length := hpos
    have hcnt_le : entriesToRemoveCount b.length ≤ b.length := by
      unfold entriesToRemoveCount
      omega
    have hne : st.cache.isEmpty = false := by
      cases hc : st.cache with
      | nil => rw [hc] at hmem2; cases hmem2
      | cons p rest => rfl
    have hclear : clearOldestEntries st =
        ⟨if (b.drop (entriesToRemoveCount b.length)).isEmpty then mapDelete st.cache k
          else mapSet st.cache k (b.drop (entriesToRemoveCount b.length)),
         st.total - min (entriesToRemoveCount b.length) b.length⟩ := by
      unfold clearOldestEntries
      rw [hfl]
      simp [hne]
    rw [hclear]
    refine ⟨hpos2, hmem2, fun p hp => hmax p hp, ?_, ?_, ?_⟩
    · by_cases hbe : (b.drop (entriesToRemoveCount b.length)).isEmpty
      · have hlen : b.length ≤ entriesToRemoveCount b.length :=
          (drop_isEmpty_iff b _).mp hbe
        simp only [if_pos hbe, if_pos hlen]
        exact mapGet_mapDelete_self hnd
      · have hlen : ¬b.length ≤ entriesToRemoveCount b.length := by
          intro hc
          exact hbe ((drop_isEmpty_iff b _).mpr hc)
        simp only [if_neg hbe, if_neg hlen]
        exact mapGet_mapSet_self _ k _
    · intro k2 hk2
      by_cases hbe : (b.drop (entriesToRemoveCount b.length)).isEmpty
      · simp only [if_pos hbe]
        exact mapGet_mapDelete_ne st.cache (fun e => hk2 e.symm)
      · simp only [if_neg hbe]
        exact mapGet_mapSet_ne st.cache (fun e => hk2 e.symm) _
    · simp [min_eq_left hcnt_le]
  · intro n hn
    unfold entriesToRemoveCount
    omega

/-- Claim C8 witness: the sweep characterization applied to a concrete
two-entry single-bucket state, and the count formula at `n = 7`. -/
theorem claim_C8_witness :
    mapGet (clearOldestEntries
        (⟨[("x", [("a", true), ("b", true)])], 2⟩ : CacheState Bool)).cache "x"
      = some [("b", true)] ∧
    1 ≤ entriesToRemoveCount 7 ∧ entriesToRemoveCount 7 ≤ 7 := by
  refine ⟨?_, ?_, ?_⟩
  · have h := (claim_C8.1 Bool ⟨[("x", [("a", true), ("b", true)])], 2⟩ "x"
      [("a", true), ("b", true)] (by decide) (by rfl)).2.2.2.1
    simpa using h
  · exact (claim_C8.2.1 7 (by decide)).1
  · exact (claim_C8.2.1 7 (by decide)).2

/-! ## Clone success on tree-shaped inputs (C5) -/

theorem mapGet_append {K V : Type} [DecidableEq K] (l1 l2 : List (K × V)) (k : K) :
    mapGet (l1 ++ l2) k =
      (match mapGet l1 k with
       | some v => some v
       | none => mapGet l2 k) := by
  induction l1 with
  | nil => simp [mapGet]
  | cons kv rest ih =>
    obtain ⟨k', v'⟩ := kv
    by_cases h : k' = k <;> simp [mapGet, h, ih]

theorem mapGet_append_notin_right {K V : Type} [DecidableEq K] {l1 l2 : List (K × V)} {k : K}
    (h : ∀ p ∈ l2, p.1 ≠ k) : mapGet (l1 ++ l2) k = mapGet l1 k := by
  rw [mapGet_append]
  cases hg : mapGet l1 k with
  | some v => rfl
  | none =>
    simp only
    rw [mapGet_eq_none]
    intro hmem
    obtain ⟨p, hp, hpk⟩ := List.mem_map.mp hmem
    exact h p hp hpk

theorem mapGet_append_notin_left {K V : Type} [DecidableEq K] {l1 l2 : List (K × V)} {k : K}
    (h : ∀ p ∈ l1, p.1 ≠ k) : mapGet (l1 ++ l2) k = mapGet l2 k := by
  rw [mapGet_append]
  have hnone : mapGet l1 k = none := by
    rw [mapGet_eq_none]
    intro hmem
    obtain ⟨p, hp, hpk⟩ := List.mem_map.mp hmem
    exact h p hp hpk
  rw [hnone]

theorem contains_eq_false_of_not_mem {a : Nat} {l : List Nat} (h : a ∉ l) :
    l.contains a = false := by
  induction l with
  | nil => rfl
  | cons b rest ih =>
    simp only [List.mem_cons] at h
    push_neg at h
    have hba : (a == b) = false := beq_eq_false_iff_ne.mpr h.1
    simp only [List.contains, List.elem, hba]
    exact ih h.2

mutual

theorem bT_range : ∀ (t : CTree) (n : Nat),
    n ≤ (bT t n).2.2 ∧
    (∀ p ∈ (bT t n).1, n ≤ p.1 ∧ p.1 < (bT t n).2.2) ∧
    (∀ a, (bT t n).2.1 = .ref a → n ≤ a ∧ a < (bT t n).2.2)
  | .prim p, n => by
    refine ⟨le_refl n, ?_, ?_⟩
    · intro q hq
      simp [bT] at hq
    · intro a ha
      simp [bT] at ha
  | .date d, n => by
    refine ⟨by simp [bT], ?_, ?_⟩
    · intro q hq
      simp only [bT, List.mem_singleton] at hq
      subst hq
      simp [bT]
    · intro a ha
      simp only [bT, HVal.ref.injEq] at ha
      subst ha
      simp [bT]
  | .arr ts, n => by
    obtain ⟨h1, h2⟩ := bTL_range ts n
    match hbl : bTL ts n with
    | (hc, vs, m) =>
      rw [hbl] at h1 h2
      simp only at h1 h2
      refine ⟨?_, ?_, ?_⟩
      · simp only [bT, hbl]
        omega
      · intro q hq
        simp only [bT, hbl, List.mem_append, List.mem_singleton] at hq ⊢
        rcases hq with hq | hq
        · have := h2 q hq
          omega
        · subst hq
          simp only
          omega
      · intro a ha
        simp only [bT, hbl, HVal.ref.injEq] at ha ⊢
        subst ha
        omega
  | .obj fs, n => by
    obtain ⟨h1, h2⟩ := bTF_range fs n
    match hbf : bTF fs n with
    | (hc, kvs, m) =>
      rw [hbf] at h1 h2
      simp only at h1 h2
      refine ⟨?_, ?_, ?_⟩
      · simp only [bT, hbf]
        omega
      · intro q hq
        simp only [bT, hbf, List.mem_append, List.mem_singleton] at hq ⊢
        rcases hq with hq | hq
        · have := h2 q hq
          omega
        · subst hq
          simp only
          omega
      · intro a ha
        simp only [bT, hbf, HVal.ref.injEq] at ha ⊢
        subst ha
        omega

theorem bTL_range : ∀ (ts : CTreeList) (n : Nat),
    n ≤ (bTL ts n).2.2 ∧
    (∀ p ∈ (bTL ts n).1, n ≤ p.1 ∧ p.1 < (bTL ts n).2.2)
  | .nil, n => by
    refine ⟨le_refl n, ?_⟩
    intro q hq
    simp [bTL] at hq
  | .cons t ts, n => by
    obtain ⟨ha1, ha2, _⟩ := bT_range t n
    match hb1 : bT t n with
    | (h1, v, mid) =>
      rw [hb1] at ha1 ha2
      simp only at ha1 ha2
      obtain ⟨hc1, hc2⟩ := bTL_range ts mid
      match hb2 : bTL ts mid with
      | (h2, vs, m2) =>
        rw [hb2] at hc1 hc2
        simp only at hc1 hc2
        refine ⟨?_, ?_⟩
        · simp only [bTL, hb1, hb2]
          omega
        · intro q hq
          simp only [bTL, hb1, hb2, List.mem_append] at hq ⊢
          rcases hq with hq | hq
          · have := ha2 q hq
            omega
          · have := hc2 q hq
            omega

theorem bTF_range : ∀ (fs : CTreeFields) (n : Nat),
    n ≤ (bTF fs n).2.2 ∧
    (∀ p ∈ (bTF fs n).1, n ≤ p.1 ∧ p.1 < (bTF fs n).2.2)
  | .nil, n => by
    refine ⟨le_refl n, ?_⟩
    intro q hq
    simp [bTF] at hq
  | .cons k t fs, n => by
    obtain ⟨ha1, ha2, _⟩ := bT_range t n
    match hb1 : bT t n with
    | (h1, v, mid) =>
      rw [hb1] at ha1 ha2
      simp only at ha1 ha2
      obtain ⟨hc1, hc2⟩ := bTF_range fs mid
      match hb2 : bTF fs mid with
      | (h2, kvs, m2) =>
        rw [hb2] at hc1 hc2
        simp only at hc1 hc2
        refine ⟨?_, ?_⟩
        · simp only [bTF, hb1, hb2]
          omega
        · intro q hq
          simp only [bTF, hb1, hb2, List.mem_append] at hq ⊢
          rcases hq with hq | hq
          · have := ha2 q hq
            omega
          · have := hc2 q hq
            omega

end

mutual

theorem depthT_le : ∀ (t : CTree) (n : Nat), depthT t ≤ heapLen (bT t n).1 + 1
  | .prim p, n => by simp [depthT, bT, heapLen]
  | .date d, n => by simp [depthT, bT, heapLen]
  | .arr ts, n => by
    have h := depthTL_le ts n
    match hbl : bTL ts n with
    | (hc, vs, m) =>
      rw [hbl] at h
      simp only at h
      simp only [depthT, bT, hbl, heapLen, List.length_append, List.length_cons,
        List.length_nil]
      simp only [heapLen] at h
      omega
  | .obj fs, n => by
    have h := depthTF_le fs n
    match hbf : bTF fs n with
    | (hc, kvs, m) =>
      rw [hbf] at h
      simp only at h
      simp only [depthT, bT, hbf, heapLen, List.length_append, List.length_cons,
        List.length_nil]
      simp only [heapLen] at h
      omega

theorem depthTL_le : ∀ (ts : CTreeList) (n : Nat), depthTL ts ≤ heapLen (bTL ts n).1 + 1
  | .nil, n => by simp [depthTL, bTL, heapLen]
  | .cons t ts, n => by
    have h1 := depthT_le t n
    match hb1 : bT t n with
    | (hh1, v, mid) =>
      rw [hb1] at h1
      simp only at h1
      have h2 := depthTL_le ts mid
      match hb2 : bTL ts mid with
      | (hh2, vs, m2) =>
        rw [hb2] at h2
        simp only at h2
        simp only [depthTL, bTL, hb1, hb2, heapLen, List.length_append]
        simp only [heapLen] at h1 h2
        omega

theorem depthTF_le : ∀ (fs : CTreeFields) (n : Nat), depthTF fs ≤ heapLen (bTF fs n).1 + 1
  | .nil, n => by simp [depthTF, bTF, heapLen]
  | .cons k t fs, n => by
    have h1 := depthT_le t n
    match hb1 : bT t n with
    | (hh1, v, mid) =>
      rw [hb1] at h1
      simp only at h1
      have h2 := depthTF_le fs mid
      match hb2 : bTF fs mid with
      | (hh2, kvs, m2) =>
        rw [hb2] at h2
        simp only at h2
        simp only [depthTF, bTF, hb1, hb2, heapLen, List.length_append]
        simp only [heapLen] at h1 h2
        omega

end

mutual

theorem cloneV_bT_ok : ∀ (t : CTree) (n : Nat) (h1 : Heap) (v : HVal) (m : Nat),
    bT t n = (h1, v, m) →
    ∀ (H : Heap) (fuel : Nat) (visited : List Nat),
    (∀ a, n ≤ a → a < m → heapGet H a = heapGet h1 a) →
    (∀ a ∈ visited, a < n ∨ m ≤ a) →
    depthT t ≤ fuel →
    ∃ r vis2, cloneV H fuel visited v = .ok (r, vis2) ∧
      (∀ a ∈ vis2, a ∈ visited ∨ (n ≤ a ∧ a < m))
  | .prim p, n => by
    intro h1 v m hbt H fuel visited hH hvis hfuel
    simp only [bT, Prod.mk.injEq] at hbt
    obtain ⟨hbh, hbv, hbm⟩ := hbt
    subst hbh; subst hbv; subst hbm
    obtain ⟨f, rfl⟩ : ∃ f, fuel = f + 1 := by
      simp only [depthT] at hfuel
      exact ⟨fuel - 1, by omega⟩
    refine ⟨.prim p, visited, by simp [cloneV], fun a ha => Or.inl ha⟩
  | .date d, n => by
    intro h1 v m hbt H fuel visited hH hvis hfuel
    simp only [bT, Prod.mk.injEq] at hbt
    obtain ⟨hbh, hbv, hbm⟩ := hbt
    subst hbh; subst hbv; subst hbm
    obtain ⟨f, rfl⟩ : ∃ f, fuel = f + 1 := by
      simp only [depthT] at hfuel
      exact ⟨fuel - 1, by omega⟩
    have hnot : n ∉ visited := by
      intro hmem
      rcases hvis n hmem with h | h <;> omega
    have hcf := contains_eq_false_of_not_mem hnot
    have hHn : heapGet H n = some (.date d) := by
      rw [hH n (le_refl n) (Nat.lt_succ_self n)]
      simp [heapGet, mapGet]
    refine ⟨.date d, n :: visited, ?_, ?_⟩
    · simp [cloneV, hcf, hHn, hnot]
    · intro a ha
      rcases List.mem_cons.mp ha with rfl | ha
      · exact Or.inr ⟨le_refl _, Nat.lt_succ_self _⟩
      · exact Or.inl ha
  | .arr ts, n => by
    intro h1 v m hbt H fuel visited hH hvis hfuel
    obtain ⟨hr1, hr2⟩ := bTL_range ts n
    match hbl : bTL ts n with
    | (hc, vs, mm) =>
      rw [hbl] at hr1 hr2
      simp only at hr1 hr2
      simp only [bT, hbl, Prod.mk.injEq] at hbt
      obtain ⟨hbh, hbv, hbm⟩ := hbt
      subst hbh; subst hbv; subst hbm
      obtain ⟨f, rfl⟩ : ∃ f, fuel = f + 1 := by
        simp only [depthT] at hfuel
        exact ⟨fuel - 1, by omega⟩
      have hfuel2 : depthTL ts ≤ f := by
        simp only [depthT] at hfuel
        omega
      have hnot : mm ∉ visited := by
        intro hmem
        rcases hvis mm hmem with h | h <;> omega
      have hcf := contains_eq_false_of_not_mem hnot
      have hHmm : heapGet H mm = some (.arr vs) := by
        rw [hH mm hr1 (Nat.lt_succ_self mm)]
        show mapGet (hc ++ [(mm, HNode.arr vs)]) mm = some (.arr vs)
        rw [mapGet_append_notin_left (fun p hp => by have := hr2 p hp; omega)]
        simp [mapGet]
      have hHc : ∀ a, n ≤ a → a < mm → heapGet H a = heapGet hc a := by
        intro a ha1 ha2
        rw [hH a ha1 (by omega)]
        show mapGet (hc ++ [(mm, HNode.arr vs)]) a = mapGet hc a
        apply mapGet_append_notin_right
        intro p hp
        simp only [List.mem_singleton] at hp
        subst hp
        simp only
        omega
      have hvis2 : ∀ a ∈ mm :: visited, a < n ∨ mm ≤ a := by
        intro a ha
        rcases List.mem_cons.mp ha with rfl | ha
        · exact Or.inr (le_refl _)
        · rcases hvis a ha with h | h
          · exact Or.inl h
          · exact Or.inr (by omega)
      obtain ⟨out, vis2, heq, hadds⟩ :=
        cloneElems_bTL_ok ts n hc vs mm hbl H f (mm :: visited) .nil hHc hvis2 hfuel2
      refine ⟨.arr out, vis2, ?_, ?_⟩
      · simp only [cloneV, hcf, Bool.false_eq_true, if_false, hHmm]
        exact heq
      · intro a ha
        rcases hadds a ha with h | h
        · rcases List.mem_cons.mp h with rfl | h
          · exact Or.inr ⟨hr1, Nat.lt_succ_self _⟩
          · exact Or.inl h
        · exact Or.inr ⟨h.1, by omega⟩
  | .obj fs, n => by
    intro h1 v m hbt H fuel visited hH hvis hfuel
    obtain ⟨hr1, hr2⟩ := bTF_range fs n
    match hbf : bTF fs n with
    | (hc, kvs, mm) =>
      rw [hbf] at hr1 hr2
      simp only at hr1 hr2
      simp only [bT, hbf, Prod.mk.injEq] at hbt
      obtain ⟨hbh, hbv, hbm⟩ := hbt
      subst hbh; subst hbv; subst hbm
      obtain ⟨f, rfl⟩ : ∃ f, fuel = f + 1 := by
        simp only [depthT] at hfuel
        exact ⟨fuel - 1, by omega⟩
      have hfuel2 : depthTF fs ≤ f := by
        simp only [depthT] at hfuel
        omega
      have hnot : mm ∉ visited := by
        intro hmem
        rcases hvis mm hmem with h | h <;> omega
      have hcf := contains_eq_false_of_not_mem hnot
      have hHmm : heapGet H mm = some (.obj kvs) := by
        rw [hH mm hr1 (Nat.lt_succ_self mm)]
        show mapGet (hc ++ [(mm, HNode.obj kvs)]) mm = some (.obj kvs)
        rw [mapGet_append_notin_left (fun p hp => by have := hr2 p hp; omega)]
        simp [mapGet]
      have hHc : ∀ a, n ≤ a → a < mm → heapGet H a = heapGet hc a := by
        intro a ha1 ha2
        rw [hH a ha1 (by omega)]
        show mapGet (hc ++ [(mm, HNode.obj kvs)]) a = mapGet hc a
        apply mapGet_append_notin_right
        intro p hp
        simp only [List.mem_singleton] at hp
        subst hp
        simp only
        omega
      have hvis2 : ∀ a ∈ mm :: visited, a < n ∨ mm ≤ a := by
        intro a ha
        rcases List.mem_cons.mp ha with rfl | ha
        · exact Or.inr (le_refl _)
        · rcases hvis a ha with h | h
          · exact Or.inl h
          · exact Or.inr (by omega)
      obtain ⟨out, vis2, heq, hadds⟩ :=
        cloneFields_bTF_ok fs n hc kvs mm hbf H f (mm :: visited) .nil hHc hvis2 hfuel2
      refine ⟨.obj out, vis2, ?_, ?_⟩
      · simp only [cloneV, hcf, Bool.false_eq_true, if_false, hHmm]
        exact heq
      · intro a ha
        rcases hadds a ha with h | h
        · rcases List.mem_cons.mp h with rfl | h
          · exact Or.inr ⟨hr1, Nat.lt_succ_self _⟩
          · exact Or.inl h
        · exact Or.inr ⟨h.1, by omega⟩

theorem cloneElems_bTL_ok : ∀ (ts : CTreeList) (n : Nat) (hc : Heap) (vs : List HVal)
    (m2 : Nat), bTL ts n = (hc, vs, m2) →
    ∀ (H : Heap) (fuel : Nat) (visited : List Nat) (acc : CTreeList),
    (∀ a, n ≤ a → a < m2 → heapGet H a = heapGet hc a) →
    (∀ a ∈ visited, a < n ∨ m2 ≤ a) →
    depthTL ts ≤ fuel →
    ∃ out vis2, cloneElems (cloneV H fuel) vs acc visited = .ok (.arr out, vis2) ∧
      (∀ a ∈ vis2, a ∈ visited ∨ (n ≤ a ∧ a < m2))
  | .nil, n => by
    intro hc vs m2 hbl H fuel visited acc hH hvis hfuel
    simp only [bTL, Prod.mk.injEq] at hbl
    obtain ⟨hbh, hbv, hbm⟩ := hbl
    subst hbh; subst hbv; subst hbm
    exact ⟨acc, visited, by simp [cloneElems], fun a ha => Or.inl ha⟩
  | .cons t ts, n => by
    intro hc vs m2 hbl H fuel visited acc hH hvis hfuel
    obtain ⟨ha1, ha2, _⟩ := bT_range t n
    match hb1 : bT t n with
    | (h1, v, mid) =>
      rw [hb1] at ha1 ha2
      simp only at ha1 ha2
      obtain ⟨hc1, hc2⟩ := bTL_range ts mid
      match hb2 : bTL ts mid with
      | (h2, vs2, mm2) =>
        rw [hb2] at hc1 hc2
        simp only at hc1 hc2
        simp only [bTL, hb1, hb2, Prod.mk.injEq] at hbl
        obtain ⟨hbh, hbv, hbm⟩ := hbl
        subst hbh; subst hbv; subst hbm
        have hH1 : ∀ a, n ≤ a → a < mid → heapGet H a = heapGet h1 a := by
          intro a h1a h2a
          rw [hH a h1a (by omega)]
          show mapGet (h1 ++ h2) a = mapGet h1 a
          apply mapGet_append_notin_right
          intro p hp
          have := hc2 p hp
          omega
        have hvis1 : ∀ a ∈ visited, a < n ∨ mid ≤ a := by
          intro a ha
          rcases hvis a ha with h | h
          · exact Or.inl h
          · exact Or.inr (by omega)
        have hfuel1 : depthT t ≤ fuel :=
          le_trans (le_max_left _ _) (by simpa [depthTL] using hfuel)
        obtain ⟨r, vis2, heq1, hadds1⟩ :=
          cloneV_bT_ok t n h1 v mid hb1 H fuel visited hH1 hvis1 hfuel1
        have hH2 : ∀ a, mid ≤ a → a < mm2 → heapGet H a = heapGet h2 a := by
          intro a h1a h2a
          rw [hH a (by omega) h2a]
          show mapGet (h1 ++ h2) a = mapGet h2 a
          apply mapGet_append_notin_left
          intro p hp
          have := ha2 p hp
          omega
        have hvis2 : ∀ a ∈ vis2, a < mid ∨ mm2 ≤ a := by
          intro a ha
          rcases hadds1 a ha with h | h
          · rcases hvis a h with h2 | h2
            · exact Or.inl (by omega)
            · exact Or.inr h2
          · exact Or.inl h.2
        have hfuel2 : depthTL ts ≤ fuel :=
          le_trans (le_max_right _ _) (by simpa [depthTL] using hfuel)
        obtain ⟨out, vis3, heq2, hadds2⟩ :=
          cloneElems_bTL_ok ts mid h2 vs2 mm2 hb2 H fuel vis2 (snocL acc r) hH2 hvis2 hfuel2
        refine ⟨out, vis3, ?_, ?_⟩
        · simp only [cloneElems]
          rw [heq1]
          simp only [Bind.bind, Except.bind]
          exact heq2
        · intro a ha
          rcases hadds2 a ha with h | h
          · rcases hadds1 a h with h2 | h2
            · exact Or.inl h2
            · exact Or.inr ⟨h2.1, by omega⟩
          · exact Or.inr ⟨by omega, h.2⟩

theorem cloneFields_bTF_ok : ∀ (fs : CTreeFields) (n : Nat) (hc : Heap)
    (kvs : List (String × HVal)) (m2 : Nat), bTF fs n = (hc, kvs, m2) →
    ∀ (H : Heap) (fuel : Nat) (visited : List Nat) (acc : CTreeFields),
    (∀ a, n ≤ a → a < m2 → heapGet H a = heapGet hc a) →
    (∀ a ∈ visited, a < n ∨ m2 ≤ a) →
    depthTF fs ≤ fuel →
    ∃ out vis2, cloneFields (cloneV H fuel) (filterDangerousKeys kvs) acc visited
        = .ok (.obj out, vis2) ∧
      (∀ a ∈ vis2, a ∈ visited ∨ (n ≤ a ∧ a < m2))
  | .nil, n => by
    intro hc kvs m2 hbf H fuel visited acc hH hvis hfuel
    simp only [bTF, Prod.mk.injEq] at hbf
    obtain ⟨hbh, hbv, hbm⟩ := hbf
    subst hbh; subst hbv; subst hbm
    exact ⟨acc, visited, by simp [cloneFields, filterDangerousKeys], fun a ha => Or.inl ha⟩
  | .cons k t fs, n => by
    intro hc kvs m2 hbf H fuel visited acc hH hvis hfuel
    obtain ⟨ha1, ha2, _⟩ := bT_range t n
    match hb1 : bT t n with
    | (h1, v, mid) =>
      rw [hb1] at ha1 ha2
      simp only at ha1 ha2
      obtain ⟨hc1, hc2⟩ := bTF_range fs mid
      match hb2 : bTF fs mid with
      | (h2, kvs2, mm2) =>
        rw [hb2] at hc1 hc2
        simp only at hc1 hc2
        simp only [bTF, hb1, hb2, Prod.mk.injEq] at hbf
        obtain ⟨hbh, hbv, hbm⟩ := hbf
        subst hbh; subst hbv; subst hbm
        have hH2 : ∀ a, mid ≤ a → a < mm2 → heapGet H a = heapGet h2 a := by
          intro a h1a h2a
          rw [hH a (by omega) h2a]
          show mapGet (h1 ++ h2) a = mapGet h2 a
          apply mapGet_append_notin_left
          intro p hp
          have := ha2 p hp
          omega
        have hfuel2 : depthTF fs ≤ fuel :=
          le_trans (le_max_right _ _) (by simpa [depthTF] using hfuel)
        by_cases hsafe : SecUtils.isPropertyKeySafe k
        · have hH1 : ∀ a, n ≤ a → a < mid → heapGet H a = heapGet h1 a := by
            intro a h1a h2a
            rw [hH a h1a (by omega)]
            show mapGet (h1 ++ h2) a = mapGet h1 a
            apply mapGet_append_notin_right
            intro p hp
            have := hc2 p hp
            omega
          have hvis1 : ∀ a ∈ visited, a < n ∨ mid ≤ a := by
            intro a ha
            rcases hvis a ha with h | h
            · exact Or.inl h
            · exact Or.inr (by omega)
          have hfuel1 : depthT t ≤ fuel :=
            le_trans (le_max_left _ _) (by simpa [depthTF] using hfuel)
          obtain ⟨r, vis2, heq1, hadds1⟩ :=
            cloneV_bT_ok t n h1 v mid hb1 H fuel visited hH1 hvis1 hfuel1
          have hvis2 : ∀ a ∈ vis2, a < mid ∨ mm2 ≤ a := by
            intro a ha
            rcases hadds1 a ha with h | h
            · rcases hvis a h with h2 | h2
              · exact Or.inl (by omega)
              · exact Or.inr h2
            · exact Or.inl h.2
          obtain ⟨out, vis3, heq2, hadds2⟩ :=
            cloneFields_bTF_ok fs mid h2 kvs2 mm2 hb2 H fuel vis2 (snocF acc k r)
              hH2 hvis2 hfuel2
          refine ⟨out, vis3, ?_, ?_⟩
          · have hfc : filterDangerousKeys ((k, v) :: kvs2)
                = (k, v) :: filterDangerousKeys kvs2 := by
              simp [filterDangerousKeys, List.filter_cons, hsafe]
            rw [hfc]
            simp only [cloneFields]
            rw [heq1]
            simp only [Bind.bind, Except.bind]
            exact heq2
          · intro a ha
            rcases hadds2 a ha with h | h
            · rcases hadds1 a h with h2 | h2
              · exact Or.inl h2
              · exact Or.inr ⟨h2.1, by omega⟩
            · exact Or.inr ⟨by omega, h.2⟩
        · have hvis1 : ∀ a ∈ visited, a < mid ∨ mm2 ≤ a := by
            intro a ha
            rcases hvis a ha with h | h
            · exact Or.inl (by omega)
            · exact Or.inr h
          obtain ⟨out, vis3, heq2, hadds2⟩ :=
            cloneFields_bTF_ok fs mid h2 kvs2 mm2 hb2 H fuel visited acc hH2 hvis1 hfuel2
          refine ⟨out, vis3, ?_, ?_⟩
          · have hfc : filterDangerousKeys ((k, v) :: kvs2) = filterDangerousKeys kvs2 := by
              simp [filterDangerousKeys, List.filter_cons, hsafe]
            rw [hfc]
            exact heq2
          · intro a ha
            rcases hadds2 a ha with h | h
            · exact Or.inl h
            · exact Or.inr ⟨by omega, h.2⟩

end

/-- Claim C5 counterexample, refuting both directions of the "if and
only if some object is reachable from itself" claim: the diamond
`hDiamond` (one shared plain object referenced from two keys, no cycle
anywhere) raises the circular-reference error because the per-call
visited set is never pruned; and the genuinely self-referential
`hDanger` — whose cycle sits under the dangerous key `__self` — is
cloned successfully, because the key filtering drops the edge before the
traversal can see it. -/
theorem claim_C5_counterexample :
    (ObjectClone hDiamond (.ref 0) = .error .circular ∧
     hasSelfLoop hDiamond (.ref 0) = false) ∧
    (ObjectClone hDanger (.ref 0) = .ok (.obj .nil) ∧
     hasSelfLoop hDanger (.ref 0) = true) :=
  ⟨⟨by rfl, by decide⟩, ⟨by rfl, by decide⟩⟩

/-- Claim C5 (amended): `ObjectClone` raises the circular-reference
error exactly when its traversal — which descends through array elements
and the non-dangerous keys of plain objects, and never removes entries
from the per-call visited set — meets an object already visited.
Consequently: every input of supported types in which no object is
referenced more than once (the heap image `bT t 0` of an arbitrary value
tree) is cloned successfully; a genuinely self-referential plain input
raises the error; but so does a non-circular diamond with one shared
reference; while a cycle reachable only through a dangerous key is
cloned without error. -/
theorem claim_C5 :
    (∀ t : CTree, ∃ r, ObjectClone (bT t 0).1 (bT t 0).2.1 = .ok r) ∧
    ObjectClone hSelf (.ref 0) = .error .circular ∧
    ObjectClone hDiamond (.ref 0) = .error .circular ∧
    ObjectClone hDanger (.ref 0) = .ok (.obj .nil) := by
  refine ⟨?_, by rfl, by rfl, by rfl⟩
  intro t
  match hbt : bT t 0 with
  | (h1, v, m) =>
    have hd := depthT_le t 0
    rw [hbt] at hd
    simp only at hd
    simp only [heapLen] at hd
    obtain ⟨r, vis2, heq, _⟩ := cloneV_bT_ok t 0 h1 v m hbt h1 (heapLen h1 + 2) []
      (fun a h1a h2a => rfl) (fun a ha => by cases ha) (by simp only [heapLen]; omega)
    refine ⟨r, ?_⟩
    simp only
    unfold ObjectClone
    rw [heq]
    rfl
